import Mathlib

/-!
# Verification of the Highlighter offset-mapping / range-decomposition engine

Shallow embedding of `src/Highlighter.js` (the `Highlighter` class) of
recogito-js.  Text content is modelled as `List Char`; the DOM tree of the
container as the inductive `DNode` (text leaves and element nodes); nodes are
identified by their index in the document-order sequence of text leaves, which
is exactly the identity the source's offset mapper uses (`walkTextNodes`
collects text nodes in document order).  Promise/requestAnimationFrame
scheduling is modelled by the pure chunking recursion `renderLoop`, which
mirrors the `render` closure inside `init` (one recursive call per animation
frame, `resolve()` fired in the branch where the remainder is empty).
-/

set_option maxHeartbeats 1000000

namespace Highlighter

/-- An annotation as consumed by the Highlighter: opaque `id`, a `type` tag
(`"shadow"` suppresses rendering), whether `selector('TextPositionSelector')`
is truthy, and the `start`/`end` character offsets.  The JS `end` field is
named `end_` because `end` is a Lean keyword. -/
structure Ann where
  id : String
  type : String
  hasTextPositionSelector : Bool
  start : Nat
  end_ : Nat
deriving DecidableEq, Repr

/-- The value returned by the user-supplied formatter: JS `undefined`/`null`
(falsy), a string, or an object with optional `className`, `style` and
`data-*` attributes (an object is always truthy in JS). -/
inductive FormatVal where
  | undef : FormatVal
  | strv : String → FormatVal
  | objv : Option String → Option String → List (String × String) → FormatVal
deriving DecidableEq, Repr

/-- JS truthiness of a formatter result: `undefined` and `''` are falsy,
objects and non-empty strings are truthy. -/
def FormatVal.truthy : FormatVal → Bool
  | .undef => false
  | .strv s => s ≠ ""
  | .objv _ _ _ => true

/-- The element data carried by an element node: `fresh` marks a SPAN just
created by `wrapRange` and not yet bound/styled (it models membership in the
`spans` array the source passes from `wrapRange` to `bindAnnotation` and
`applyStyles`); `cls` is `className`, `dataId` is `dataset.id`, `ann` the
`annotation` back-reference property, `style` the `style` attribute text and
`attrs` the remaining (`data-*`) attributes. -/
structure ED where
  fresh : Bool
  cls : String
  dataId : String
  ann : Option Ann
  style : String
  attrs : List (String × String)
deriving DecidableEq, Repr

/-- A freshly created `document.createElement('SPAN')`. -/
def freshED : ED := ⟨true, "", "", none, "", []⟩

/-- The container's node tree: text leaves and element nodes. -/
inductive DNode where
  | text : List Char → DNode
  | elem : ED → List DNode → DNode

mutual

/-- Document-order sequence of the text contents of all text leaves under a
node (the sequence `document.createNodeIterator(node, NodeFilter.SHOW_TEXT)`
iterates). -/
def textLeaves : DNode → List (List Char)
  | .text s => [s]
  | .elem _ cs => textLeavesList cs

def textLeavesList : List DNode → List (List Char)
  | [] => []
  | n :: rest => textLeaves n ++ textLeavesList rest

end

/-- Total length of a list of leaves. -/
def sumLen (ls : List (List Char)) : Nat := (ls.map List.length).sum

/-- The concatenated plain-text content of a node (its `textContent`). -/
def concatText (n : DNode) : List Char := (textLeaves n).flatten

/-- Splits a character list on single spaces (the token structure of a
`class` attribute, as `String.splitOn " "` computes it). -/
def splitSp : List Char → List (List Char)
  | [] => [[]]
  | c :: rest =>
      if c = ' ' then [] :: splitSp rest
      else
        match splitSp rest with
        | [] => [[c]]
        | w :: ws => (c :: w) :: ws

/-- Class attribute membership test for one class token (CSS `.token`). -/
def hasClassTok (cls tok : String) : Bool := (splitSp cls.toList).contains tok.toList

/-- An element is a rendered annotation marker when its class list contains
`r6o-annotation` (the selector `.r6o-annotation` used throughout the source). -/
def isMarker (d : ED) : Bool := hasClassTok d.cls ("r6o-annotation")

/-- The selector `.r6o-annotation[data-id="id"]`. -/
def matchesId (i : String) (d : ED) : Bool := isMarker d && d.dataId == i

mutual

/-- The element datas matching a predicate, in document (pre-)order — the
order `querySelectorAll` returns matches in. -/
def collectElems (p : ED → Bool) : DNode → List ED
  | .text _ => []
  | .elem d cs => (if p d then [d] else []) ++ collectElemsList p cs

def collectElemsList (p : ED → Bool) : List DNode → List ED
  | [] => []
  | n :: rest => collectElems p n ++ collectElemsList p rest

end

/-! ## Offset Mapper (`walkTextNodes`, `charOffsetsToDOMPosition`,
`calculateDomPositionWithin`) -/

/-- The `walkTextNodes` accumulator loop: push each text node, stop as soon as the
running offset has passed `stopOffset` (`if (runningOffset > stopOffset)
break`, checked after the push). -/
def walkAux (stopOffset : Nat) : List (List Char) → Nat → List (List Char)
  | [], _ => []
  | t :: rest, run =>
      t :: (if run + t.length ≤ stopOffset then walkAux stopOffset rest (run + t.length) else [])

/-- Source `walkTextNodes(node, stopOffset)`: the document-order text leaves of
`node`, truncated once the running offset passes `stopOffset`. -/
def walkTextNodes (node : DNode) (stopOffset : Nat) : List (List Char) :=
  walkAux stopOffset (textLeaves node) 0

/-- One entry of `textNodeProps`: the node (as a leaf index), its running
start and its running end (`start + textContent.length`). -/
structure TProps where
  node : Nat
  start : Nat
  end_ : Nat
deriving DecidableEq, Repr

/-- Builds `textNodeProps` from the walked leaves: leaf `k` gets
`{node := k, start := c, end := c + len}` with `c` the running start. -/
def buildProps : List (List Char) → Nat → Nat → List TProps
  | [], _, _ => []
  | t :: rest, k, c => ⟨k, c, c + t.length⟩ :: buildProps rest (k + 1) (c + t.length)

/-- A DOM position as produced by `calculateDomPositionWithin`:
`{charOffset, node, offset}` with `node` a leaf index. -/
structure DPos where
  charOffset : Nat
  node : Nat
  offset : Nat
deriving DecidableEq, Repr

/-- The JS `positions[positions.length - 1].charOffset`, or `none` when `positions`
is empty (JS uses `false`, which compares unequal to every number). -/
def lastOff (ps : List DPos) : Option Nat := ps.getLast?.map DPos.charOffset

/-- The push step of `calculateDomPositionWithin`'s inner loop: push
`{charOffset, node, offset: charOffset - props.start}` when the offset lies in
`[props.start, props.end]` and differs from the previously pushed offset. -/
def pushPos (ps : List DPos) (pr : TProps) (o : Nat) : List DPos :=
  if pr.start ≤ o ∧ o ≤ pr.end_ ∧ lastOff ps ≠ some o then
    ps ++ [⟨o, pr.node, o - pr.start⟩]
  else ps

/-- The inner `charOffsets.forEach` of `calculateDomPositionWithin`. -/
def calcNode (offs : List Nat) (ps : List DPos) (pr : TProps) : List DPos :=
  offs.foldl (fun acc o => pushPos acc pr o) ps

/-- Source `calculateDomPositionWithin(textNodeProperties, charOffsets)`.  The source
uses `forEach`, whose callback's return value is ignored, so the `return
positions.length < charOffsets.length` "break" has no effect: every prop is
visited. -/
def calculateDomPositionWithin (props : List TProps) (offs : List Nat) : List DPos :=
  props.foldl (fun acc pr => calcNode offs acc pr) []

/-- JS `Math.max` over a list (the source applies it to `[start, end]`). -/
def listMax (l : List Nat) : Nat := l.foldl Nat.max 0

/-- Source `charOffsetsToDOMPosition(charOffsets)`: walk the text nodes up to the
maximum requested offset, build running-offset props, and resolve each
requested offset to a `(node, offset)` position. -/
def charOffsetsToDOMPosition (tree : DNode) (offs : List Nat) : List DPos :=
  calculateDomPositionWithin (buildProps (walkAux (listMax offs) (textLeaves tree) 0) 0 0) offs

/-! ## Range Decomposer / Highlight Renderer (`wrapRange`,
`_unwrapHighlightings`, `normalize`, queries) -/

mutual

/-- Replace each text leaf (counted in document order starting at `k`) by the
node list `f k leafText`; returns the replacement together with the leaf count
consumed.  Used to express the net tree mutation of `wrapRange`, whose three
`surroundContents`/`insertBefore` operations touch distinct original leaves
(node identity in the source; leaf index here). -/
def replaceLeavesGo (f : Nat → List Char → List DNode) : DNode → Nat → List DNode × Nat
  | .text s, k => (f k s, k + 1)
  | .elem d cs, k =>
      let p := replaceLeavesList f cs k
      ([.elem d p.1], p.2)

def replaceLeavesList (f : Nat → List Char → List DNode) : List DNode → Nat → List DNode × Nat
  | [], k => ([], k)
  | n :: rest, k =>
      let p := replaceLeavesGo f n k
      let q := replaceLeavesList f rest p.2
      (p.1 ++ q.1, q.2)

end

/-- Replace leaves in a whole tree.  The container root is an element, so the
singleton result list is repacked; a bare text root is left to the (unused)
fallback. -/
def replaceLeaves (f : Nat → List Char → List DNode) (tree : DNode) : DNode :=
  match tree with
  | .elem d cs => .elem d (replaceLeavesList f cs 0).1
  | .text s => .text s

/-- A `wrapRange` result span, described by the text it wraps (the span itself
is a fresh SPAN in the mutated tree; see `freshED`). -/
abbrev SpanDesc := List Char

/-- The leaf replacement performed by the same-container branch of
`wrapRange` (one `surroundContents` splitting leaf `si` around `[a, b)`). -/
def wrapSameF (si a b : Nat) : Nat → List Char → List DNode := fun k t =>
  if k = si then
    [.text (t.take a), .elem freshED [.text ((t.drop a).take (b - a))], .text (t.drop b)]
  else [.text t]

/-- The leaf replacement performed by the different-container branch of
`wrapRange`: wrap `t[a,·)` of the start leaf, `u[0,b)` of the end leaf, move
every leaf strictly between into its own fresh SPAN. -/
def wrapMultiF (si a ei b : Nat) : Nat → List Char → List DNode := fun k t =>
  if k = si then [.text (t.take a), .elem freshED [.text (t.drop a)]]
  else if k = ei then [.elem freshED [.text (t.take b)], .text (t.drop b)]
  else if si < k ∧ k < ei then [.elem freshED [.text t]]
  else [.text t]

/-- Source `wrapRange(range)` with `range` given as start/end `(leaf index, local
offset)` positions (the form `charOffsetsToDOMPosition` produces).  Returns
the mutated tree and the returned `spans` array (as wrapped-text
descriptors).

* Early return: `if (range.startContainer.length === range.startOffset) return []`
  — the *whole* call returns with no mutation, not just the head sub-range.
* Same-container branch: one `surroundContents`, splitting the leaf into
  `t[0,a)`, a fresh SPAN holding `t[a,b)`, and `t[b,·)`.
* Different-container branch: the start surround wraps `t[a,·)` of the start
  leaf, the end surround (`selectNode` + `setEnd`) wraps `u[0,b)` of the end
  leaf, and every text leaf strictly between is moved into its own fresh SPAN
  (`insertBefore` + `appendChild`), processed in reverse document order, so
  the returned array is `[start] ++ between.reverse ++ [end]`.  On single
  text-node sub-ranges `surroundContents` succeeds, so the
  `isValidRange`/`filter(Boolean)` failure path never fires here. -/
def wrapRange (tree : DNode) (si a ei b : Nat) : DNode × List SpanDesc :=
  if ((textLeaves tree).getD si []).length = a then (tree, [])
  else if si = ei then
    (replaceLeaves (wrapSameF si a b) tree,
     [(((textLeaves tree).getD si []).drop a).take (b - a)])
  else
    (replaceLeaves (wrapMultiF si a ei b) tree,
     [((textLeaves tree).getD si []).drop a]
       ++ (((textLeaves tree).drop (si + 1)).take (ei - si - 1)).reverse
       ++ [((textLeaves tree).getD ei []).take b])

mutual

/-- Apply `g` to the data of every element whose data satisfies `p` (the way
`bindAnnotation`/`applyStyles` iterate over a span list and set fields). -/
def mapElems (p : ED → Bool) (g : ED → ED) : DNode → DNode
  | .text s => .text s
  | .elem d cs => .elem (if p d then g d else d) (mapElemsList p g cs)

def mapElemsList (p : ED → Bool) (g : ED → ED) : List DNode → List DNode
  | [] => []
  | n :: rest => mapElems p g n :: mapElemsList p g rest

end

/-- Source `bindAnnotation(annotation, elements)`: set `el.annotation` and
`el.dataset.id` on every element selected by `p` (for `_addAnnotation` the
fresh spans just returned by `wrapRange`; for `overrideId` the spans matching
the original id). -/
def bindF (a : Ann) : ED → ED := fun x => { x with ann := some a, dataId := a.id }

def bindAnnotation (p : ED → Bool) (a : Ann) (tree : DNode) : DNode :=
  mapElems p (bindF a) tree

/-- The `extraClasses` value `applyStyles` computes from the formatter result:
a string result is used directly, an object result contributes its truthy
`className`, otherwise `''`. -/
def extraClasses (v : FormatVal) : String :=
  if v.truthy then
    match v with
    | .strv s => s
    | .objv cn _ _ => match cn with | some c => if c ≠ "" then c else ("") | none => ""
    | .undef => ""
  else ("")

/-- The `data-*` attributes `applyStyles` copies from an (object) formatter
result (`for key in format` over a primitive string yields only numeric
indices, none starting with `data-`). -/
def dataAttrs (v : FormatVal) : List (String × String) :=
  if v.truthy then
    match v with
    | .objv _ _ das => das.filter (fun kv => kv.1.startsWith ("data-"))
    | _ => []
  else []

/-- The truthy `style` of an object formatter result. -/
def styleOf (v : FormatVal) : Option String :=
  if v.truthy then
    match v with
    | .objv _ (some st) _ => if st ≠ "" then some st else none
    | _ => none
  else none

/-- How many times `applyStyles` invokes the user formatter on one annotation:
once in the guard `if (this.formatter && this.formatter(annotation))` and,
when that result is truthy, a second time in
`const format = this.formatter(annotation)`. -/
def formatterCallCount (fmt : Option (Ann → FormatVal)) (a : Ann) : Nat :=
  match fmt with
  | none => 0
  | some f => if (f a).truthy then 2 else 1

/-- The per-span mutation `applyStyles` performs: overwrite `className` with
`('r6o-annotation ' + extraClasses).trim()`, append the formatter `style` to
the style attribute, add the `data-*` attributes; the span leaves the fresh
`spans` array (`fresh := false`). -/
def styleF (v : FormatVal) : ED → ED := fun x =>
  { x with
    fresh := false
    cls := ("r6o-annotation " ++ extraClasses v).trim
    style := match styleOf v with
      | some st => (x.style ++ " " ++ st).trim
      | none => x.style
    attrs := x.attrs ++ dataAttrs v }

/-- Source `applyStyles(annotation, spans)` restricted to its tree effect on the
spans: append the formatter `style` to each span's style attribute, set the
`data-*` attributes, and set
`span.className = ('r6o-annotation ' + extraClasses).trim()`, which clears the
`fresh` mark (the `spans` array is not used again afterwards).  The
background-gradient stacking and the hover listeners read
`window.getComputedStyle` and install event handlers — browser-environment
effects outside this embedding; they change no attribute modelled here except
`backgroundImage`. -/
def applyStyles (fmt : Option (Ann → FormatVal)) (a : Ann) (tree : DNode) : DNode :=
  mapElems (fun d => d.fresh)
    (styleF (match fmt with
      | none => FormatVal.undef
      | some f => if (f a).truthy then f a else FormatVal.undef)) tree

mutual

/-- Source `_unwrapHighlightings` over the statically collected spans matching `p`
(the `querySelectorAll` result): each matching element is replaced in place by
its child nodes (`insertBefore` each child, then `removeChild`); a childless
matching element is replaced by a text node holding its `textContent` (empty
for a childless span). -/
def unwrapMatching (p : ED → Bool) : DNode → List DNode
  | .text s => [.text s]
  | .elem d cs =>
      let cs' := unwrapMatchingList p cs
      if p d then (if cs.isEmpty then [.text []] else cs') else [.elem d cs']

def unwrapMatchingList (p : ED → Bool) : List DNode → List DNode
  | [] => []
  | n :: rest => unwrapMatching p n ++ unwrapMatchingList p rest

end

/-- The sibling-merging step of `Node.normalize()`: remove empty text nodes
and join adjacent text siblings. -/
def mergeAdjacent : List DNode → List DNode
  | [] => []
  | .text s :: rest =>
      if s.isEmpty then mergeAdjacent rest
      else
        match mergeAdjacent rest with
        | .text t :: rest' => .text (s ++ t) :: rest'
        | r => .text s :: r
  | n :: rest => n :: mergeAdjacent rest

mutual

/-- DOM `el.normalize()`: recursively normalize descendants, then merge adjacent
text siblings and drop empty text nodes in every child list. -/
def normalizeNode : DNode → DNode
  | .text s => .text s
  | .elem d cs => .elem d (mergeAdjacent (normalizeList cs))

def normalizeList : List DNode → List DNode
  | [] => []
  | n :: rest => normalizeNode n :: normalizeList rest

end

/-! ## Public operations -/

/-- Source `findAnnotationSpans(annotationOrId)`: the document-order list of spans
matching `.r6o-annotation[data-id="id"]`; the empty result is reported with a
`console.warn` and returned as `[]`. -/
def findAnnotationSpans (tree : DNode) (i : String) : List ED :=
  collectElems (matchesId i) tree

/-- Source `removeAnnotation(annotation)`: unwrap the spans found for the
annotation's id and `normalize()`.  `findAnnotationSpans` returns an array,
and `if (spans)` is true even for `[]`, so the unwrap/normalize always runs. -/
def removeAnnotation (tree : DNode) (i : String) : DNode :=
  match tree with
  | .elem d cs => .elem d (mergeAdjacent (normalizeList (unwrapMatchingList (matchesId i) cs)))
  | .text s => .text s

/-- Source `clear()`: unwrap every `.r6o-annotation` span under the container and
`normalize()`. -/
def clear (tree : DNode) : DNode :=
  match tree with
  | .elem d cs => .elem d (mergeAdjacent (normalizeList (unwrapMatchingList isMarker cs)))
  | .text s => .text s

/-- Source `_addAnnotation(annotation)` as a tree transformation.  A `'shadow'`
annotation short-circuits into `removeAnnotation`.  Otherwise the two char
offsets are mapped; the JS destructuring `[domStart, domEnd]` followed by
`domStart.node`/`domEnd.node` throws inside the `try` when fewer than two
positions came back, and the catch leaves the tree untouched (warning only).
Otherwise the range is wrapped and the resulting fresh spans are bound and
styled. -/
def addAnnotation (fmt : Option (Ann → FormatVal)) (tree : DNode) (a : Ann) : DNode :=
  if a.type = "shadow" then removeAnnotation tree a.id
  else
    match charOffsetsToDOMPosition tree [a.start, a.end_] with
    | p1 :: p2 :: _ =>
        let t1 := (wrapRange tree p1.node p1.offset p2.node p2.offset).1
        let t2 := bindAnnotation (fun d => d.fresh) a t1
        applyStyles fmt a t2
    | _ => tree

/-- The combined selector `addOrUpdateAnnotation` unwraps: spans carrying the
annotation's id or (when given) the previous annotation's id
(`uniqueItems(annoSpans.concat(prevSpans))`). -/
def pmOf (a : Ann) (maybePrevious : Option Ann) : ED → Bool := fun x =>
  matchesId a.id x || (match maybePrevious with
    | some p => matchesId p.id x
    | none => false)

/-- Source `addOrUpdateAnnotation(annotation, maybePrevious)`: unwrap the existing
spans for the annotation's id (and the previous annotation's id, if given)
when any exist, normalize, then re-add unless the annotation is of type
`'shadow'`. -/
def addOrUpdateAnnotation (fmt : Option (Ann → FormatVal)) (tree : DNode) (a : Ann)
    (maybePrevious : Option Ann) : DNode :=
  let t1 :=
    if (collectElems (pmOf a maybePrevious) tree).length > 0 then
      match tree with
      | .elem d cs =>
          .elem d (mergeAdjacent (normalizeList (unwrapMatchingList (pmOf a maybePrevious) cs)))
      | .text s => .text s
    else tree
  if a.type ≠ "shadow" then addAnnotation fmt t1 a else t1

/-- Source `overrideId(originalId, forcedId)`: look up all spans with the original
id; `allSpans[0].annotation` throws a `TypeError` when the NodeList is empty
(or the first span carries no annotation back-reference) — there is no
`try`/`catch` around it.  On success the cloned annotation (with the forced
id) is bound onto all matched spans. -/
def overrideId (tree : DNode) (originalId forcedId : String) : Except String (Ann × DNode) :=
  match (findAnnotationSpans tree originalId).head? with
  | none => .error ("TypeError: Cannot read properties of undefined")
  | some d =>
      match d.ann with
      | none => .error ("TypeError: annotation is undefined")
      | some annot =>
          let updated := { annot with id := forcedId }
          .ok (updated, bindAnnotation (matchesId originalId) updated tree)

/-! ## Batch Scheduler (`init`) -/

/-- Source constant `RENDER_BATCH_SIZE`. -/
def RENDER_BATCH_SIZE : Nat := 100

/-- The descending-start comparator `(a, b) => b.start - a.start`. -/
def startGE (a b : Ann) : Prop := b.start ≤ a.start

instance : DecidableRel startGE := fun a b => Nat.decLe b.start a.start

instance : IsTotal Ann startGE := ⟨fun a b => Nat.le_total b.start a.start⟩

instance : IsTrans Ann startGE := ⟨fun _ _ _ h1 h2 => Nat.le_trans h2 h1⟩

/-- The filter `init` applies before batching: keep annotations with a truthy
`selector('TextPositionSelector')` and type other than `'shadow'`. -/
def initFilter (anns : List Ann) : List Ann :=
  anns.filter (fun a => a.hasTextPositionSelector && a.type ≠ "shadow")

/-- The list `highlights` inside `init`: filtered, then sorted bottom-to-top
(descending `start`). -/
def initHighlights (anns : List Ann) : List Ann :=
  List.insertionSort startGE (initFilter anns)

/-- The `render` loop inside `init`: process a `RENDER_BATCH_SIZE` chunk per
animation frame; when the remainder is empty, `resolve()` fires (once) after
the last chunk, otherwise recurse.  Returns the concatenation of the
processed chunks in processing order together with the number of `resolve()`
calls. -/
def renderLoop (l : List Ann) : List Ann × Nat :=
  if h : (l.drop RENDER_BATCH_SIZE).length > 0 then
    let p := renderLoop (l.drop RENDER_BATCH_SIZE)
    (l.take RENDER_BATCH_SIZE ++ p.1, p.2)
  else (l.take RENDER_BATCH_SIZE, 1)
termination_by l.length
decreasing_by
  simp only [RENDER_BATCH_SIZE, List.length_drop] at h ⊢
  omega

/-- Source `init(annotations)`: the order in which annotations are handed to
`_addAnnotation` across all animation frames, plus the number of `resolve()`
signals. -/
def initSchedule (anns : List Ann) : List Ann × Nat :=
  renderLoop (initHighlights anns)

/-- The net tree effect of `init(annotations)`: each scheduled annotation is
rendered in order (`batch.forEach(this._addAnnotation)`); `_addAnnotation`
catches its own errors, so every scheduled annotation is processed. -/
def initTree (fmt : Option (Ann → FormatVal)) (tree : DNode) (anns : List Ann) : DNode :=
  (initSchedule anns).1.foldl ( addAnnotation fmt) tree

/-! ## Basic lemmas about the embedding -/

theorem sumLen_nil : sumLen [] = 0 := rfl

theorem sumLen_cons (t : List Char) (ls : List (List Char)) :
    sumLen (t :: ls) = t.length + sumLen ls := by
  simp [sumLen]

theorem sumLen_append (xs ys : List (List Char)) :
    sumLen (xs ++ ys) = sumLen xs + sumLen ys := by
  simp [sumLen]

theorem textLeavesList_append (xs ys : List DNode) :
    textLeavesList (xs ++ ys) = textLeavesList xs ++ textLeavesList ys := by
  induction xs with
  | nil => rfl
  | cons n rest ih => simp [textLeavesList, ih]

mutual

theorem textLeaves_mapElems (p : ED → Bool) (g : ED → ED) :
    ∀ n : DNode, textLeaves (mapElems p g n) = textLeaves n
  | .text _ => rfl
  | .elem d cs => by
      have h := textLeavesList_mapElems p g cs
      simp [mapElems, textLeaves, h]

theorem textLeavesList_mapElems (p : ED → Bool) (g : ED → ED) :
    ∀ cs : List DNode, textLeavesList (mapElemsList p g cs) = textLeavesList cs
  | [] => rfl
  | n :: rest => by
      have h1 := textLeaves_mapElems p g n
      have h2 := textLeavesList_mapElems p g rest
      simp [mapElemsList, textLeavesList, h1, h2]

end

mutual

theorem flatten_unwrapMatching (p : ED → Bool) :
    ∀ n : DNode, (textLeavesList (unwrapMatching p n)).flatten = (textLeaves n).flatten
  | .text _ => by simp [unwrapMatching, textLeavesList, textLeaves]
  | .elem d cs => by
      have h := flatten_unwrapMatchingList p cs
      by_cases hp : p d
      · by_cases hcs : cs.isEmpty
        · rw [List.isEmpty_iff] at hcs
          subst hcs
          simp [unwrapMatching, textLeavesList, textLeaves, hp]
        · simp [unwrapMatching, hp, hcs, textLeaves, h]
      · simp [unwrapMatching, hp, textLeavesList, textLeaves, h]

theorem flatten_unwrapMatchingList (p : ED → Bool) :
    ∀ cs : List DNode,
      (textLeavesList (unwrapMatchingList p cs)).flatten = (textLeavesList cs).flatten
  | [] => rfl
  | n :: rest => by
      have h1 := flatten_unwrapMatching p n
      have h2 := flatten_unwrapMatchingList p rest
      simp [unwrapMatchingList, textLeavesList_append, textLeavesList, h1, h2]

end

theorem flatten_mergeAdjacent :
    ∀ cs : List DNode,
      (textLeavesList (mergeAdjacent cs)).flatten = (textLeavesList cs).flatten := by
  intro cs
  induction cs with
  | nil => rfl
  | cons n rest ih =>
      match n with
      | .text s =>
          by_cases hs : s.isEmpty
          · rw [List.isEmpty_iff] at hs
            subst hs
            simpa [mergeAdjacent, textLeavesList, textLeaves] using ih
          · rcases hm : mergeAdjacent rest with - | ⟨m, rest'⟩
            · have h0 : (textLeavesList rest).flatten = ([] : List Char) := by
                rw [← ih, hm]; rfl
              simp only [mergeAdjacent, if_neg hs, hm]
              simp [textLeavesList, textLeaves, h0]
            · match m with
              | .text t =>
                  have ih' : t ++ (textLeavesList rest').flatten
                      = (textLeavesList rest).flatten := by
                    rw [← ih, hm]
                    simp [textLeavesList, textLeaves]
                  simp only [mergeAdjacent, if_neg hs, hm]
                  simp only [textLeavesList, textLeaves, List.flatten_cons,
                    List.flatten_append, List.append_assoc, List.flatten_nil,
                    List.nil_append, List.append_nil]
                  rw [ih']
              | .elem d' cs' =>
                  have ih' : (textLeavesList (.elem d' cs' :: rest')).flatten
                      = (textLeavesList rest).flatten := by
                    rw [← ih, hm]
                  simp only [mergeAdjacent, if_neg hs, hm]
                  simp only [textLeavesList, textLeaves, List.flatten_cons,
                    List.flatten_append, List.append_assoc, List.flatten_nil,
                    List.nil_append, List.append_nil] at ih' ⊢
                  rw [ih']
      | .elem d cs' =>
          simp [mergeAdjacent, textLeavesList, ih]

mutual

theorem flatten_normalizeNode :
    ∀ n : DNode, (textLeaves (normalizeNode n)).flatten = (textLeaves n).flatten
  | .text _ => rfl
  | .elem d cs => by
      have h := flatten_normalizeList cs
      simp [normalizeNode, textLeaves, flatten_mergeAdjacent, h]

theorem flatten_normalizeList :
    ∀ cs : List DNode,
      (textLeavesList (normalizeList cs)).flatten = (textLeavesList cs).flatten
  | [] => rfl
  | n :: rest => by
      have h1 := flatten_normalizeNode n
      have h2 := flatten_normalizeList rest
      simp [normalizeList, textLeavesList, h1, h2]

end

theorem concatText_removeAnnotation (tree : DNode) (i : String) :
    concatText ( removeAnnotation tree i) = concatText tree := by
  match tree with
  | .text s => rfl
  | .elem d cs =>
      simp [ removeAnnotation, concatText, textLeaves, flatten_mergeAdjacent,
        flatten_normalizeList, flatten_unwrapMatchingList]

theorem concatText_clear (tree : DNode) :
    concatText (clear tree) = concatText tree := by
  match tree with
  | .text s => rfl
  | .elem d cs =>
      simp [clear, concatText, textLeaves, flatten_mergeAdjacent,
        flatten_normalizeList, flatten_unwrapMatchingList]

/-! ## Offset Mapper lemmas -/

/-- First-fit resolution of one character offset against a run of leaves
starting at leaf index `k` and running offset `c`: the `(node, runningStart)`
pair of the first leaf whose running interval reaches the offset.  This is
the specification the fold in `calculateDomPositionWithin` is proved to
implement. -/
def findProp (o : Nat) : List (List Char) → Nat → Nat → Option (Nat × Nat)
  | [], _, _ => none
  | t :: rest, k, c =>
      if o ≤ c + t.length then some (k, c) else findProp o rest (k + 1) (c + t.length)

/-- The running start offset of leaf `i` of a tree. -/
def leafStart (tree : DNode) (i : Nat) : Nat := sumLen ((textLeaves tree).take i)

/-- The fold underlying `calculateDomPositionWithin`, with an explicit
accumulator. -/
def calcFold (offs : List Nat) (P : List DPos) (props : List TProps) : List DPos :=
  props.foldl (fun acc pr => calcNode offs acc pr) P

theorem calculateDomPositionWithin_eq (props : List TProps) (offs : List Nat) :
    calculateDomPositionWithin props offs = calcFold offs [] props := rfl

theorem calcNode_pair (s e : Nat) (P : List DPos) (pr : TProps) :
    calcNode [s, e] P pr = pushPos (pushPos P pr s) pr e := rfl

theorem lastOff_append_single (P : List DPos) (x : DPos) :
    lastOff (P ++ [x]) = some x.charOffset := by
  simp [lastOff]

theorem pushPos_of_last (P : List DPos) (pr : TProps) (o : Nat) (h : lastOff P = some o) :
    pushPos P pr o = P := by
  unfold pushPos
  rw [if_neg]
  intro hc
  exact hc.2.2 (h ▸ rfl)

theorem pushPos_of_lt (P : List DPos) (pr : TProps) (o : Nat) (h : o < pr.start) :
    pushPos P pr o = P := by
  unfold pushPos
  rw [if_neg]
  intro hc
  exact absurd hc.1 (Nat.not_le.mpr h)

theorem pushPos_of_gt (P : List DPos) (pr : TProps) (o : Nat) (h : pr.end_ < o) :
    pushPos P pr o = P := by
  unfold pushPos
  rw [if_neg]
  intro hc
  exact absurd hc.2.1 (Nat.not_le.mpr h)

theorem pushPos_push (P : List DPos) (pr : TProps) (o : Nat)
    (h1 : pr.start ≤ o) (h2 : o ≤ pr.end_) (h3 : lastOff P ≠ some o) :
    pushPos P pr o = P ++ [⟨o, pr.node, o - pr.start⟩] := by
  unfold pushPos
  rw [if_pos ⟨h1, h2, h3⟩]

/-- Stage 2 of the fold: once the last pushed offset is `e` and every
remaining prop starts at or after `e`, nothing more is pushed. -/
theorem calcFold_stage2 (s e : Nat) (hse : s < e) :
    ∀ (ws : List (List Char)) (k c : Nat) (P : List DPos),
      lastOff P = some e → e ≤ c → calcFold [s, e] P (buildProps ws k c) = P := by
  intro ws
  induction ws with
  | nil => intro k c P _ _; rfl
  | cons t rest ih =>
      intro k c P hlast hec
      have hs : pushPos P ⟨k, c, c + t.length⟩ s = P := by
        by_cases hcs : s < c
        · exact pushPos_of_lt P _ s hcs
        · exact absurd (Nat.lt_of_lt_of_le hse hec) (Nat.not_lt.mpr (Nat.not_lt.mp hcs))
      have he : pushPos P ⟨k, c, c + t.length⟩ e = P := pushPos_of_last P _ e hlast
      calc calcFold [s, e] P (buildProps (t :: rest) k c)
          = calcFold [s, e] (pushPos (pushPos P ⟨k, c, c + t.length⟩ s)
              ⟨k, c, c + t.length⟩ e) (buildProps rest (k + 1) (c + t.length)) := rfl
        _ = P := by
            rw [hs, he]
            exact ih (k + 1) (c + t.length) P hlast (Nat.le_trans hec (Nat.le_add_right c _))

/-- Stage 1 of the fold: the last pushed offset is `s`, and `e` lies strictly
beyond the running offset but within the remaining leaves; exactly the
position for `e` is appended, at the first-fit leaf. -/
theorem calcFold_stage1 (s e : Nat) (hse : s < e) :
    ∀ (ws : List (List Char)) (k c : Nat) (P : List DPos),
      lastOff P = some s → c < e → e ≤ c + sumLen ws →
      ∃ ke ce, findProp e ws k c = some (ke, ce) ∧
        calcFold [s, e] P (buildProps ws k c) = P ++ [⟨e, ke, e - ce⟩] := by
  intro ws
  induction ws with
  | nil =>
      intro k c P _ hce hcov
      rw [sumLen_nil, Nat.add_zero] at hcov
      exact absurd (Nat.lt_of_lt_of_le hce hcov) (Nat.lt_irrefl c)
  | cons t rest ih =>
      intro k c P hlast hce hcov
      have hps : pushPos P ⟨k, c, c + t.length⟩ s = P := pushPos_of_last P _ s hlast
      by_cases he : e ≤ c + t.length
      · refine ⟨k, c, by simp [findProp, he], ?_⟩
        have hpe : pushPos P ⟨k, c, c + t.length⟩ e
            = P ++ [⟨e, k, e - c⟩] := by
          refine pushPos_push P _ e (Nat.le_of_lt hce) he ?_
          rw [hlast]
          intro hcon
          exact Nat.ne_of_lt hse (Option.some.inj hcon)
        calc calcFold [s, e] P (buildProps (t :: rest) k c)
            = calcFold [s, e] (pushPos (pushPos P ⟨k, c, c + t.length⟩ s)
                ⟨k, c, c + t.length⟩ e) (buildProps rest (k + 1) (c + t.length)) := rfl
          _ = P ++ [⟨e, k, e - c⟩] := by
              rw [hps, hpe]
              exact calcFold_stage2 s e hse rest (k + 1) (c + t.length) _
                (lastOff_append_single P _) he
      · have hpe : pushPos P ⟨k, c, c + t.length⟩ e = P :=
          pushPos_of_gt P _ e (Nat.lt_of_not_le he)
        have hcov' : e ≤ (c + t.length) + sumLen rest := by
          rw [sumLen_cons] at hcov
          omega
        obtain ⟨ke, ce, hfind, hfold⟩ :=
          ih (k + 1) (c + t.length) P hlast (Nat.lt_of_not_le he) hcov'
        refine ⟨ke, ce, by simp [findProp, he, hfind], ?_⟩
        calc calcFold [s, e] P (buildProps (t :: rest) k c)
            = calcFold [s, e] (pushPos (pushPos P ⟨k, c, c + t.length⟩ s)
                ⟨k, c, c + t.length⟩ e) (buildProps rest (k + 1) (c + t.length)) := rfl
          _ = P ++ [⟨e, ke, e - ce⟩] := by rw [hps, hpe]; exact hfold

/-- Stage 0: starting from the empty position list with the running offset at
or before `s < e` and both offsets covered by the remaining leaves, the fold
produces exactly the two first-fit positions, in `[s, e]` order. -/
theorem calcFold_stage0 (s e : Nat) (hse : s < e) :
    ∀ (ws : List (List Char)) (k c : Nat),
      c ≤ s → e ≤ c + sumLen ws →
      ∃ ks cs ke ce, findProp s ws k c = some (ks, cs) ∧
        findProp e ws k c = some (ke, ce) ∧
        calcFold [s, e] [] (buildProps ws k c) = [⟨s, ks, s - cs⟩, ⟨e, ke, e - ce⟩] := by
  intro ws
  induction ws with
  | nil =>
      intro k c hcs hcov
      rw [sumLen_nil, Nat.add_zero] at hcov
      exact absurd (Nat.lt_of_le_of_lt hcs hse) (Nat.not_lt.mpr hcov)
  | cons t rest ih =>
      intro k c hcs hcov
      by_cases hs1 : s ≤ c + t.length
      · have hpushS : pushPos [] ⟨k, c, c + t.length⟩ s
            = [⟨s, k, s - c⟩] := by
          refine pushPos_push [] _ s hcs hs1 ?_
          simp [lastOff]
        by_cases he1 : e ≤ c + t.length
        · refine ⟨k, c, k, c, by simp [findProp, hs1], by simp [findProp, he1], ?_⟩
          have hpushE : pushPos [⟨s, k, s - c⟩] ⟨k, c, c + t.length⟩ e
              = [⟨s, k, s - c⟩, ⟨e, k, e - c⟩] := by
            refine pushPos_push _ _ e (Nat.le_trans hcs (Nat.le_of_lt hse)) he1 ?_
            simp only [lastOff, List.getLast?_singleton, Option.map_some]
            intro hcon
            exact Nat.ne_of_lt hse (Option.some.inj hcon)
          calc calcFold [s, e] [] (buildProps (t :: rest) k c)
              = calcFold [s, e] (pushPos (pushPos [] ⟨k, c, c + t.length⟩ s)
                  ⟨k, c, c + t.length⟩ e) (buildProps rest (k + 1) (c + t.length)) := rfl
            _ = [⟨s, k, s - c⟩, ⟨e, k, e - c⟩] := by
                rw [hpushS, hpushE]
                exact calcFold_stage2 s e hse rest (k + 1) (c + t.length) _
                  (by simp [lastOff]) he1
        · have hpushE : pushPos [⟨s, k, s - c⟩] ⟨k, c, c + t.length⟩ e
              = [⟨s, k, s - c⟩] := pushPos_of_gt _ _ e (Nat.lt_of_not_le he1)
          have hcov' : e ≤ (c + t.length) + sumLen rest := by
            rw [sumLen_cons] at hcov
            omega
          obtain ⟨ke, ce, hfind, hfold⟩ :=
            calcFold_stage1 s e hse rest (k + 1) (c + t.length) [⟨s, k, s - c⟩]
              (by simp [lastOff]) (Nat.lt_of_not_le he1) hcov'
          refine ⟨k, c, ke, ce, by simp [findProp, hs1], by simp [findProp, he1, hfind], ?_⟩
          calc calcFold [s, e] [] (buildProps (t :: rest) k c)
              = calcFold [s, e] (pushPos (pushPos [] ⟨k, c, c + t.length⟩ s)
                  ⟨k, c, c + t.length⟩ e) (buildProps rest (k + 1) (c + t.length)) := rfl
            _ = [⟨s, k, s - c⟩, ⟨e, ke, e - ce⟩] := by
                rw [hpushS, hpushE]
                exact hfold
      · have hs1' : c + t.length < s := Nat.lt_of_not_le hs1
        have he1' : c + t.length < e := Nat.lt_trans hs1' hse
        have hpushS : pushPos [] ⟨k, c, c + t.length⟩ s = [] :=
          pushPos_of_gt _ _ s hs1'
        have hpushE : pushPos [] ⟨k, c, c + t.length⟩ e = [] :=
          pushPos_of_gt _ _ e he1'
        have hcov' : e ≤ (c + t.length) + sumLen rest := by
          rw [sumLen_cons] at hcov
          omega
        obtain ⟨ks, cs, ke, ce, hfs, hfe, hfold⟩ :=
          ih (k + 1) (c + t.length) (Nat.le_of_lt hs1') hcov'
        refine ⟨ks, cs, ke, ce, by simp [findProp, hs1, hfs],
          by simp [findProp, Nat.not_le.mpr he1', hfe], ?_⟩
        calc calcFold [s, e] [] (buildProps (t :: rest) k c)
            = calcFold [s, e] (pushPos (pushPos [] ⟨k, c, c + t.length⟩ s)
                ⟨k, c, c + t.length⟩ e) (buildProps rest (k + 1) (c + t.length)) := rfl
          _ = [⟨s, ks, s - cs⟩, ⟨e, ke, e - ce⟩] := by
              rw [hpushS, hpushE]
              exact hfold

theorem listMax_pair (s e : Nat) (h : s ≤ e) : listMax [s, e] = e := by
  simp [listMax, Nat.max_eq_right h]

/-- Lemma: `walkTextNodes` walks far enough: whatever it truncates still covers every
offset up to `stopOffset` (when the full leaf list does). -/
theorem walkAux_cover (stop : Nat) :
    ∀ (ls : List (List Char)) (run : Nat),
      stop ≤ run + sumLen ls → stop ≤ run + sumLen (walkAux stop ls run) := by
  intro ls
  induction ls with
  | nil => intro run h; exact h
  | cons t rest ih =>
      intro run h
      by_cases hc : run + t.length ≤ stop
      · have h' : stop ≤ (run + t.length) + sumLen rest := by
          rw [sumLen_cons] at h
          omega
        have := ih (run + t.length) h'
        simp only [walkAux, if_pos hc, sumLen_cons]
        omega
      · simp only [walkAux, if_neg hc, sumLen_cons, sumLen_nil]
        omega

/-- Lemma: `walkTextNodes` returns a prefix of the document-order leaves. -/
theorem walkAux_decomp (stop : Nat) :
    ∀ (ls : List (List Char)) (run : Nat), ∃ ys, ls = walkAux stop ls run ++ ys := by
  intro ls
  induction ls with
  | nil => intro run; exact ⟨[], rfl⟩
  | cons t rest ih =>
      intro run
      by_cases hc : run + t.length ≤ stop
      · obtain ⟨ys, hys⟩ := ih (run + t.length)
        exact ⟨ys, by simp only [walkAux, if_pos hc, List.cons_append]; rw [← hys]⟩
      · exact ⟨rest, by simp [walkAux, if_neg hc]⟩

/-- First-fit positions stay within the leaf run, start at the leaf's running
start, and contain the requested offset. -/
theorem findProp_bounds (o : Nat) :
    ∀ (ws : List (List Char)) (k c : Nat) (kj cj : Nat),
      findProp o ws k c = some (kj, cj) → c ≤ o →
      k ≤ kj ∧ kj - k < ws.length ∧ cj = c + sumLen (ws.take (kj - k)) ∧
        cj ≤ o ∧ o ≤ cj + (ws.getD (kj - k) []).length := by
  intro ws
  induction ws with
  | nil => intro k c kj cj h _; exact absurd h (by simp [findProp])
  | cons t rest ih =>
      intro k c kj cj h hco
      by_cases hc : o ≤ c + t.length
      · simp only [findProp, if_pos hc] at h
        obtain ⟨hk, hc'⟩ := Prod.mk.injEq .. ▸ (Option.some.inj h)
        subst hk; subst hc'
        refine ⟨Nat.le_refl k, by simp, ?_, hco, ?_⟩
        · simp [Nat.sub_self, sumLen_nil]
        · simpa [Nat.sub_self] using hc
      · simp only [findProp, if_neg hc] at h
        have hco' : c + t.length ≤ o := Nat.le_of_lt (Nat.lt_of_not_le hc)
        obtain ⟨h1, h2, h3, h4, h5⟩ := ih (k + 1) (c + t.length) kj cj h hco'
        have hkk : k < kj := Nat.lt_of_lt_of_le (Nat.lt_succ_self k) h1
        have hsub : kj - k = (kj - (k + 1)) + 1 := by omega
        refine ⟨Nat.le_of_lt hkk, ?_, ?_, h4, ?_⟩
        · simp only [List.length_cons]; omega
        · rw [hsub]
          simp only [List.take_succ_cons, sumLen_cons]
          omega
        · rw [hsub]
          simpa using h5

/-- First fit over a longer run agrees once the shorter run already found the
offset. -/
theorem findProp_append (o : Nat) :
    ∀ (ws ys : List (List Char)) (k c : Nat) (r : Nat × Nat),
      findProp o ws k c = some r → findProp o (ws ++ ys) k c = some r := by
  intro ws
  induction ws with
  | nil => intro ys k c r h; exact absurd h (by simp [findProp])
  | cons t rest ih =>
      intro ys k c r h
      by_cases hc : o ≤ c + t.length
      · simp only [findProp, if_pos hc] at h ⊢
        exact h
      · simp only [findProp, if_neg hc] at h ⊢
        exact ih ys (k + 1) (c + t.length) r h

/-- First fit is monotone in the requested offset. -/
theorem findProp_mono (o1 o2 : Nat) (h12 : o1 ≤ o2) :
    ∀ (ws : List (List Char)) (k c : Nat) (k1 c1 k2 c2 : Nat),
      findProp o1 ws k c = some (k1, c1) → findProp o2 ws k c = some (k2, c2) →
      k1 ≤ k2 ∧ c1 ≤ c2 := by
  intro ws
  induction ws with
  | nil => intro k c k1 c1 k2 c2 h _; exact absurd h (by simp [findProp])
  | cons t rest ih =>
      intro k c k1 c1 k2 c2 h1 h2
      by_cases hc1 : o1 ≤ c + t.length
      · simp only [findProp, if_pos hc1] at h1
        obtain ⟨hk, hc'⟩ := Prod.mk.injEq .. ▸ (Option.some.inj h1)
        subst hk; subst hc'
        by_cases hc2 : o2 ≤ c + t.length
        · simp only [findProp, if_pos hc2] at h2
          obtain ⟨hk, hc'⟩ := Prod.mk.injEq .. ▸ (Option.some.inj h2)
          subst hk; subst hc'
          exact ⟨Nat.le_refl _, Nat.le_refl _⟩
        · simp only [findProp, if_neg hc2] at h2
          have hb := findProp_bounds o2 rest (k + 1) (c + t.length) k2 c2 h2
            (Nat.le_of_lt (Nat.lt_of_not_le hc2))
          exact ⟨Nat.le_trans (Nat.le_succ k) hb.1, Nat.le_trans (Nat.le_add_right c _)
            (hb.2.2.1 ▸ Nat.le_add_right _ _)⟩
      · have hc2 : ¬ o2 ≤ c + t.length := fun h => hc1 (Nat.le_trans h12 h)
        simp only [findProp, if_neg hc1] at h1
        simp only [findProp, if_neg hc2] at h2
        exact ih (k + 1) (c + t.length) k1 c1 k2 c2 h1 h2

theorem sumLen_take_succ :
    ∀ (ws : List (List Char)) (i : Nat), i < ws.length →
      sumLen (ws.take (i + 1)) = sumLen (ws.take i) + (ws.getD i []).length := by
  intro ws
  induction ws with
  | nil => intro i h; exact absurd h (by simp)
  | cons t rest ih =>
      intro i h
      match i with
      | 0 => simp [sumLen_cons, sumLen_nil]
      | j + 1 =>
          have hj : j < rest.length := by simpa using h
          simp only [List.take_succ_cons, sumLen_cons, List.getD_cons_succ]
          rw [ih j hj]
          omega

/-- A boundary offset — the running end of leaf `i`, with leaf `i` reaching
strictly past the previous running offset — first-fits to leaf `i` itself
(the earlier of the two leaves sharing the boundary). -/
theorem findProp_boundary (o : Nat) :
    ∀ (ws : List (List Char)) (i k c : Nat), i < ws.length →
      o = c + sumLen (ws.take (i + 1)) → c + sumLen (ws.take i) < o →
      findProp o ws k c = some (k + i, c + sumLen (ws.take i)) := by
  intro ws
  induction ws with
  | nil => intro i k c h; exact absurd h (by simp)
  | cons t rest ih =>
      intro i k c hi ho hlt
      match i with
      | 0 =>
          have ho' : o = c + t.length := by
            simpa [sumLen_cons, sumLen_nil] using ho
          simp [findProp, ho', sumLen_nil]
      | j + 1 =>
          have hj : j < rest.length := by simpa using hi
          have ho' : o = (c + t.length) + sumLen (rest.take (j + 1)) := by
            simp only [List.take_succ_cons, sumLen_cons] at ho
            omega
          have hlt' : (c + t.length) + sumLen (rest.take j) < o := by
            simp only [List.take_succ_cons, sumLen_cons] at hlt
            omega
          have hbig : ¬ o ≤ c + t.length := by
            have : sumLen (rest.take j) + 0 ≤ sumLen (rest.take j) := Nat.le_refl _
            omega
          simp only [findProp, if_neg hbig]
          have h1 : k + 1 + j = k + (j + 1) := by omega
          have h2 : c + t.length + sumLen (rest.take j)
              = c + sumLen ((t :: rest).take (j + 1)) := by
            simp only [List.take_succ_cons, sumLen_cons]
            omega
          rw [ih j (k + 1) (c + t.length) hj ho' hlt', h1, h2]

/-- The central mapper theorem: for `s < e` within the document, the source's
`charOffsetsToDOMPosition` returns exactly the two first-fit positions for
`s` and `e` (in that order), computed against the document-order leaves. -/
theorem charOffsetsToDOMPosition_pair (tree : DNode) (s e : Nat) (hse : s < e)
    (he : e ≤ sumLen (textLeaves tree)) :
    ∃ ks cs ke ce,
      findProp s (textLeaves tree) 0 0 = some (ks, cs) ∧
      findProp e (textLeaves tree) 0 0 = some (ke, ce) ∧
      charOffsetsToDOMPosition tree [s, e] = [⟨s, ks, s - cs⟩, ⟨e, ke, e - ce⟩] := by
  have hmax : listMax [s, e] = e := listMax_pair s e (Nat.le_of_lt hse)
  have hcov : e ≤ 0 + sumLen (walkAux e (textLeaves tree) 0) :=
    walkAux_cover e (textLeaves tree) 0 (by simpa using he)
  obtain ⟨ks, cs, ke, ce, hfs, hfe, hfold⟩ :=
    calcFold_stage0 s e hse (walkAux e (textLeaves tree) 0) 0 0 (Nat.zero_le s)
      hcov
  obtain ⟨ys, hys⟩ := walkAux_decomp e (textLeaves tree) 0
  refine ⟨ks, cs, ke, ce, ?_, ?_, ?_⟩
  · rw [hys]; exact findProp_append s _ ys 0 0 _ hfs
  · rw [hys]; exact findProp_append e _ ys 0 0 _ hfe
  · unfold charOffsetsToDOMPosition
    rw [hmax, calculateDomPositionWithin_eq]
    exact hfold

/-! ## Range Decomposer lemmas -/

/-- The leaf-indexed replacement texts: what `replaceLeaves f` contributes at
each leaf, flattened over a run of leaves starting at index `k`. -/
def idxTexts (f : Nat → List Char → List DNode) : Nat → List (List Char) → List (List Char)
  | _, [] => []
  | k, t :: rest => textLeavesList (f k t) ++ idxTexts f (k + 1) rest

theorem idxTexts_append (f : Nat → List Char → List DNode) :
    ∀ (xs ys : List (List Char)) (k : Nat),
      idxTexts f k (xs ++ ys) = idxTexts f k xs ++ idxTexts f (k + xs.length) ys := by
  intro xs
  induction xs with
  | nil => intro ys k; simp [idxTexts]
  | cons t rest ih =>
      intro ys k
      simp only [List.cons_append, idxTexts, List.append_eq]
      rw [ih ys (k + 1)]
      simp only [List.length_cons, List.append_assoc]
      have h : k + 1 + rest.length = k + (rest.length + 1) := by omega
      rw [h]

mutual

theorem replaceLeavesGo_spec (f : Nat → List Char → List DNode) :
    ∀ (n : DNode) (k : Nat),
      (replaceLeavesGo f n k).2 = k + (textLeaves n).length ∧
      textLeavesList (replaceLeavesGo f n k).1 = idxTexts f k (textLeaves n)
  | .text s, k => by
      simp [replaceLeavesGo, textLeaves, idxTexts, textLeavesList]
  | .elem d cs, k => by
      have h := replaceLeavesList_spec f cs k
      refine ⟨?_, ?_⟩
      · simpa [replaceLeavesGo, textLeaves] using h.1
      · simp only [replaceLeavesGo, textLeaves, textLeavesList, List.append_nil]
        exact h.2

theorem replaceLeavesList_spec (f : Nat → List Char → List DNode) :
    ∀ (cs : List DNode) (k : Nat),
      (replaceLeavesList f cs k).2 = k + (textLeavesList cs).length ∧
      textLeavesList (replaceLeavesList f cs k).1 = idxTexts f k (textLeavesList cs)
  | [], k => by simp [replaceLeavesList, textLeavesList, idxTexts]
  | n :: rest, k => by
      have h1 := replaceLeavesGo_spec f n k
      have h2 := replaceLeavesList_spec f rest (replaceLeavesGo f n k).2
      refine ⟨?_, ?_⟩
      · simp only [replaceLeavesList, textLeavesList, List.length_append]
        rw [h2.1, h1.1]
        omega
      · simp only [replaceLeavesList, textLeavesList, textLeavesList_append]
        rw [h1.2, h2.2, h1.1, idxTexts_append]

end

theorem idxTexts_flatten (f : Nat → List Char → List DNode)
    (hf : ∀ k t, (textLeavesList (f k t)).flatten = t) :
    ∀ (ls : List (List Char)) (k : Nat), (idxTexts f k ls).flatten = ls.flatten := by
  intro ls
  induction ls with
  | nil => intro k; rfl
  | cons t rest ih =>
      intro k
      simp only [idxTexts, List.flatten_append, List.flatten_cons, hf k t, ih (k + 1)]

theorem take_drop_take_drop (t : List Char) (a b : Nat) (hab : a ≤ b) :
    t.take a ++ ((t.drop a).take (b - a) ++ t.drop b) = t := by
  have hd : t.drop b = (t.drop a).drop (b - a) := by
    rw [List.drop_drop]
    congr 1
    omega
  rw [hd, List.take_append_drop, List.take_append_drop]

/-- Lemma: `wrapRange` preserves the concatenated text content (its
`surroundContents`/`insertBefore` operations only move and split text). -/
theorem wrapRange_concat (d : ED) (cs : List DNode) (si a ei b : Nat)
    (hab : si = ei → a ≤ b) :
    concatText ((wrapRange (.elem d cs) si a ei b).1) = concatText (.elem d cs) := by
  unfold wrapRange
  split_ifs with h1 h2
  · rfl
  · simp only [concatText, textLeaves, replaceLeaves]
    rw [(replaceLeavesList_spec _ cs 0).2]
    refine idxTexts_flatten _ ?_ _ 0
    intro k t
    by_cases hk : k = si
    · simp only [wrapSameF, if_pos hk, textLeavesList, textLeaves]
      simpa using take_drop_take_drop t a b (hab h2)
    · simp [wrapSameF, if_neg hk, textLeavesList, textLeaves]
  · simp only [concatText, textLeaves, replaceLeaves]
    rw [(replaceLeavesList_spec _ cs 0).2]
    refine idxTexts_flatten _ ?_ _ 0
    intro k t
    by_cases hk : k = si
    · simp [wrapMultiF, if_pos hk, textLeavesList, textLeaves]
    · by_cases hk2 : k = ei
      · simp [wrapMultiF, if_neg hk, if_pos hk2, textLeavesList, textLeaves]
      · by_cases hk3 : si < k ∧ k < ei
        · simp [wrapMultiF, if_neg hk, if_neg hk2, if_pos hk3, textLeavesList, textLeaves]
        · simp [wrapMultiF, if_neg hk, if_neg hk2, if_neg hk3, textLeavesList, textLeaves]

/-! ## Marker collection lemmas -/

theorem collectElemsList_append (p : ED → Bool) (xs ys : List DNode) :
    collectElemsList p (xs ++ ys) = collectElemsList p xs ++ collectElemsList p ys := by
  induction xs with
  | nil => rfl
  | cons n rest ih => simp [collectElemsList, ih]

/-- The element datas the replacement function contributes at each leaf. -/
def idxElems (p : ED → Bool) (f : Nat → List Char → List DNode) :
    Nat → List (List Char) → List ED
  | _, [] => []
  | k, t :: rest => collectElemsList p (f k t) ++ idxElems p f (k + 1) rest

theorem idxElems_append (p : ED → Bool) (f : Nat → List Char → List DNode) :
    ∀ (xs ys : List (List Char)) (k : Nat),
      idxElems p f k (xs ++ ys) = idxElems p f k xs ++ idxElems p f (k + xs.length) ys := by
  intro xs
  induction xs with
  | nil => intro ys k; simp [idxElems]
  | cons t rest ih =>
      intro ys k
      simp only [List.cons_append, idxElems, List.append_eq]
      rw [ih ys (k + 1)]
      simp only [List.length_cons, List.append_assoc]
      have h : k + 1 + rest.length = k + (rest.length + 1) := by omega
      rw [h]

mutual

/-- When the original tree contains no element matching `p`, the elements
matching `p` after a leaf replacement are exactly those contributed by the
replacement function, in document order. -/
theorem collect_replaceLeavesGo (p : ED → Bool) (f : Nat → List Char → List DNode) :
    ∀ (n : DNode) (k : Nat), collectElems p n = [] →
      collectElemsList p (replaceLeavesGo f n k).1 = idxElems p f k (textLeaves n)
  | .text s, k => by
      intro _
      simp [replaceLeavesGo, textLeaves, idxElems, collectElemsList]
  | .elem d cs, k => by
      intro h0
      have hpd : p d = false := by
        by_contra hc
        have : p d = true := by revert hc; cases p d <;> simp
        simp [collectElems, this] at h0
      have hcs : collectElemsList p cs = [] := by
        simpa [collectElems, hpd] using h0
      have ih := collect_replaceLeavesList p f cs k hcs
      simp only [replaceLeavesGo, collectElemsList, collectElems, hpd, textLeaves,
        List.append_nil, List.nil_append, if_neg (by simp : ¬ (false : Bool) = true)]
      exact ih

theorem collect_replaceLeavesList (p : ED → Bool) (f : Nat → List Char → List DNode) :
    ∀ (cs : List DNode) (k : Nat), collectElemsList p cs = [] →
      collectElemsList p (replaceLeavesList f cs k).1 = idxElems p f k (textLeavesList cs)
  | [], k => by intro _; simp [replaceLeavesList, textLeavesList, idxElems, collectElemsList]
  | n :: rest, k => by
      intro h0
      simp only [collectElemsList, List.append_eq_nil] at h0
      have ih1 := collect_replaceLeavesGo p f n k h0.1
      have ih2 := collect_replaceLeavesList p f rest (replaceLeavesGo f n k).2 h0.2
      simp only [replaceLeavesList, collectElemsList_append, textLeavesList, idxElems_append]
      rw [ih1, ih2, (replaceLeavesGo_spec f n k).1]

end

mutual

/-- Any element found after a leaf replacement was either already in the tree
or contributed by the replacement function. -/
theorem mem_collect_replaceLeavesGo (p : ED → Bool) (f : Nat → List Char → List DNode) :
    ∀ (n : DNode) (k : Nat) (ed : ED),
      ed ∈ collectElemsList p (replaceLeavesGo f n k).1 →
      ed ∈ collectElems p n ∨ ∃ k' t, ed ∈ collectElemsList p (f k' t)
  | .text s, k, ed => by
      intro h
      right
      exact ⟨k, s, by simpa [replaceLeavesGo] using h⟩
  | .elem d cs, k, ed => by
      intro h
      simp only [replaceLeavesGo, collectElemsList, collectElems, List.append_nil] at h
      rcases List.mem_append.mp h with h1 | h1
      · left
        simp only [collectElems]
        exact List.mem_append.mpr (Or.inl h1)
      · rcases mem_collect_replaceLeavesList p f cs k ed h1 with h2 | h2
        · left
          simp only [collectElems]
          exact List.mem_append.mpr (Or.inr h2)
        · right; exact h2

theorem mem_collect_replaceLeavesList (p : ED → Bool) (f : Nat → List Char → List DNode) :
    ∀ (cs : List DNode) (k : Nat) (ed : ED),
      ed ∈ collectElemsList p (replaceLeavesList f cs k).1 →
      ed ∈ collectElemsList p cs ∨ ∃ k' t, ed ∈ collectElemsList p (f k' t)
  | [], k, ed => by intro h; simp [replaceLeavesList, collectElemsList] at h
  | n :: rest, k, ed => by
      intro h
      simp only [replaceLeavesList, collectElemsList_append] at h
      rcases List.mem_append.mp h with h1 | h1
      · rcases mem_collect_replaceLeavesGo p f n k ed h1 with h2 | h2
        · left
          simp only [collectElemsList]
          exact List.mem_append.mpr (Or.inl h2)
        · right; exact h2
      · rcases mem_collect_replaceLeavesList p f rest _ ed h1 with h2 | h2
        · left
          simp only [collectElemsList]
          exact List.mem_append.mpr (Or.inr h2)
        · right; exact h2

end

mutual

/-- Unwrapping all elements matching `p` leaves no element matching `p`. -/
theorem collect_unwrapMatching (p : ED → Bool) :
    ∀ n : DNode, collectElemsList p (unwrapMatching p n) = []
  | .text s => by simp [unwrapMatching, collectElemsList, collectElems]
  | .elem d cs => by
      have ih := collect_unwrapMatchingList p cs
      by_cases hp : p d = true
      · by_cases hcs : cs.isEmpty
        · simp [unwrapMatching, hp, hcs, collectElemsList, collectElems]
        · simpa [unwrapMatching, hp, hcs] using ih
      · have hp' : p d = false := by revert hp; cases p d <;> simp
        simp [unwrapMatching, hp', collectElemsList, collectElems, ih]

theorem collect_unwrapMatchingList (p : ED → Bool) :
    ∀ cs : List DNode, collectElemsList p (unwrapMatchingList p cs) = []
  | [] => rfl
  | n :: rest => by
      have h1 := collect_unwrapMatching p n
      have h2 := collect_unwrapMatchingList p rest
      simp [unwrapMatchingList, collectElemsList_append, h1, h2]

end

mutual

/-- Unwrapping is the identity when nothing matches. -/
theorem unwrapMatching_of_none (p : ED → Bool) :
    ∀ n : DNode, collectElems p n = [] → unwrapMatching p n = [n]
  | .text s => by intro _; rfl
  | .elem d cs => by
      intro h0
      have hpd : p d = false := by
        by_contra hc
        have : p d = true := by revert hc; cases p d <;> simp
        simp [collectElems, this] at h0
      have hcs : collectElemsList p cs = [] := by
        simpa [collectElems, hpd] using h0
      have ih := unwrapMatchingList_of_none p cs hcs
      simp [unwrapMatching, hpd, ih]

theorem unwrapMatchingList_of_none (p : ED → Bool) :
    ∀ cs : List DNode, collectElemsList p cs = [] → unwrapMatchingList p cs = cs
  | [] => by intro _; rfl
  | n :: rest => by
      intro h0
      simp only [collectElemsList, List.append_eq_nil] at h0
      have ih1 := unwrapMatching_of_none p n h0.1
      have ih2 := unwrapMatchingList_of_none p rest h0.2
      simp [unwrapMatchingList, ih1, ih2]

end

theorem collect_mergeAdjacent (p : ED → Bool) :
    ∀ cs : List DNode, collectElemsList p (mergeAdjacent cs) = collectElemsList p cs := by
  intro cs
  induction cs with
  | nil => rfl
  | cons n rest ih =>
      match n with
      | .text s =>
          by_cases hs : s.isEmpty
          · simpa [mergeAdjacent, hs, collectElemsList, collectElems] using ih
          · rcases hm : mergeAdjacent rest with - | ⟨m, rest'⟩
            · rw [hm] at ih
              simp only [mergeAdjacent, if_neg hs, hm]
              simpa [collectElemsList, collectElems] using ih
            · match m with
              | .text t =>
                  rw [hm] at ih
                  simp only [mergeAdjacent, if_neg hs, hm]
                  simp only [collectElemsList, collectElems, List.nil_append] at ih ⊢
                  exact ih
              | .elem d' cs' =>
                  rw [hm] at ih
                  simp only [mergeAdjacent, if_neg hs, hm]
                  simp only [collectElemsList, collectElems, List.nil_append] at ih ⊢
                  exact ih
      | .elem d cs' =>
          simp [mergeAdjacent, collectElemsList, ih]

mutual

theorem collect_normalizeNode (p : ED → Bool) :
    ∀ n : DNode, collectElems p (normalizeNode n) = collectElems p n
  | .text s => rfl
  | .elem d cs => by
      have ih := collect_normalizeList p cs
      simp [normalizeNode, collectElems, collect_mergeAdjacent, ih]

theorem collect_normalizeList (p : ED → Bool) :
    ∀ cs : List DNode, collectElemsList p (normalizeList cs) = collectElemsList p cs
  | [] => rfl
  | n :: rest => by
      have h1 := collect_normalizeNode p n
      have h2 := collect_normalizeList p rest
      simp [normalizeList, collectElemsList, h1, h2]

end

mutual

/-- Lemma: `mapElems` acts on collected elements as a filtered map. -/
theorem collect_mapElems (p : ED → Bool) (g : ED → ED) (q : ED → Bool) :
    ∀ n : DNode,
      collectElems q (mapElems p g n)
        = (collectElems (fun d => q (if p d then g d else d)) n).map
            (fun d => if p d then g d else d)
  | .text s => rfl
  | .elem d cs => by
      have ih := collect_mapElemsList p g q cs
      by_cases hp : p d = true
      · by_cases hq : q (g d) = true
        · simp [mapElems, collectElems, hp, ih, apply_ite, hq]
        · simp [mapElems, collectElems, hp, ih, apply_ite, hq]
      · have hp' : p d = false := by revert hp; cases p d <;> simp
        by_cases hq : q d = true
        · simp [mapElems, collectElems, hp', ih, apply_ite, hq]
        · simp [mapElems, collectElems, hp', ih, apply_ite, hq]

theorem collect_mapElemsList (p : ED → Bool) (g : ED → ED) (q : ED → Bool) :
    ∀ cs : List DNode,
      collectElemsList q (mapElemsList p g cs)
        = (collectElemsList (fun d => q (if p d then g d else d)) cs).map
            (fun d => if p d then g d else d)
  | [] => rfl
  | n :: rest => by
      have h1 := collect_mapElems p g q n
      have h2 := collect_mapElemsList p g q rest
      simp [mapElemsList, collectElemsList, h1, h2]

end

/-! ## Out-of-range mapper behaviour -/

theorem sumLen_flatten (ls : List (List Char)) : sumLen ls = ls.flatten.length := by
  induction ls with
  | nil => rfl
  | cons t rest ih => simp [sumLen_cons, ih]

/-- When the stop offset is at or past the total length, the walk visits every
leaf. -/
theorem walkAux_all (stop : Nat) :
    ∀ (ls : List (List Char)) (run : Nat), run + sumLen ls ≤ stop →
      walkAux stop ls run = ls := by
  intro ls
  induction ls with
  | nil => intro run _; rfl
  | cons t rest ih =>
      intro run h
      rw [sumLen_cons] at h
      have h1 : run + t.length ≤ stop := by omega
      have h2 : (run + t.length) + sumLen rest ≤ stop := by omega
      simp [walkAux, if_pos h1, ih (run + t.length) h2]

/-- Once the last pushed offset is `s` and `e` lies beyond all remaining
leaves, the fold pushes nothing more. -/
theorem calcFold_out (s e : Nat) (hse : s < e) :
    ∀ (ws : List (List Char)) (k c : Nat) (P : List DPos),
      lastOff P = some s → c + sumLen ws < e →
      calcFold [s, e] P (buildProps ws k c) = P := by
  intro ws
  induction ws with
  | nil => intro k c P _ _; rfl
  | cons t rest ih =>
      intro k c P hlast hout
      rw [sumLen_cons] at hout
      have hs : pushPos P ⟨k, c, c + t.length⟩ s = P := pushPos_of_last P _ s hlast
      have he : pushPos P ⟨k, c, c + t.length⟩ e = P :=
        pushPos_of_gt P _ e (by show c + t.length < e; omega)
      calc calcFold [s, e] P (buildProps (t :: rest) k c)
          = calcFold [s, e] (pushPos (pushPos P ⟨k, c, c + t.length⟩ s)
              ⟨k, c, c + t.length⟩ e) (buildProps rest (k + 1) (c + t.length)) := rfl
        _ = P := by
            rw [hs, he]
            exact ih (k + 1) (c + t.length) P hlast (by omega)

/-- Starting empty with `e` beyond every leaf: the result is `[]` or the single
first-fit position for `s` — never a position for `e`. -/
theorem calcFold_out0 (s e : Nat) (hse : s < e) :
    ∀ (ws : List (List Char)) (k c : Nat), c ≤ s → c + sumLen ws < e →
      calcFold [s, e] [] (buildProps ws k c) = []
      ∨ ∃ ks cs, findProp s ws k c = some (ks, cs) ∧
          calcFold [s, e] [] (buildProps ws k c) = [⟨s, ks, s - cs⟩] := by
  intro ws
  induction ws with
  | nil => intro k c _ _; exact Or.inl rfl
  | cons t rest ih =>
      intro k c hcs hout
      rw [sumLen_cons] at hout
      have hpushE : ∀ P : List DPos, pushPos P ⟨k, c, c + t.length⟩ e = P :=
        fun P => pushPos_of_gt P _ e (by show c + t.length < e; omega)
      by_cases hs1 : s ≤ c + t.length
      · have hpushS : pushPos [] ⟨k, c, c + t.length⟩ s = [⟨s, k, s - c⟩] := by
          refine pushPos_push [] _ s hcs hs1 ?_
          simp [lastOff]
        refine Or.inr ⟨k, c, by simp [findProp, hs1], ?_⟩
        calc calcFold [s, e] [] (buildProps (t :: rest) k c)
            = calcFold [s, e] (pushPos (pushPos [] ⟨k, c, c + t.length⟩ s)
                ⟨k, c, c + t.length⟩ e) (buildProps rest (k + 1) (c + t.length)) := rfl
          _ = [⟨s, k, s - c⟩] := by
              rw [hpushS, hpushE]
              exact calcFold_out s e hse rest (k + 1) (c + t.length) _
                (by simp [lastOff]) (by omega)
      · have hpushS : pushPos [] ⟨k, c, c + t.length⟩ s = [] :=
          pushPos_of_gt [] _ s (Nat.lt_of_not_le hs1)
        have step : calcFold [s, e] [] (buildProps (t :: rest) k c)
            = calcFold [s, e] [] (buildProps rest (k + 1) (c + t.length)) := by
          calc calcFold [s, e] [] (buildProps (t :: rest) k c)
              = calcFold [s, e] (pushPos (pushPos [] ⟨k, c, c + t.length⟩ s)
                  ⟨k, c, c + t.length⟩ e) (buildProps rest (k + 1) (c + t.length)) := rfl
            _ = calcFold [s, e] [] (buildProps rest (k + 1) (c + t.length)) := by
                rw [hpushS, hpushE]
        rcases ih (k + 1) (c + t.length) (Nat.le_of_lt (Nat.lt_of_not_le hs1)) (by omega)
          with h | ⟨ks, cs, hf, hc⟩
        · exact Or.inl (step.trans h)
        · exact Or.inr ⟨ks, cs, by simp [findProp, hs1, hf], step.trans hc⟩

/-- The mapper's output for `[s, e]` with `e` strictly beyond the document:
at most one position, and none of them for `e`. -/
theorem charOffsetsToDOMPosition_out (tree : DNode) (s e : Nat) (hse : s < e)
    (hout : sumLen (textLeaves tree) < e) :
    charOffsetsToDOMPosition tree [s, e] = []
    ∨ ∃ ks cs, findProp s (textLeaves tree) 0 0 = some (ks, cs) ∧
        charOffsetsToDOMPosition tree [s, e] = [⟨s, ks, s - cs⟩] := by
  have hmax : listMax [s, e] = e := listMax_pair s e (Nat.le_of_lt hse)
  have hall : walkAux e (textLeaves tree) 0 = textLeaves tree :=
    walkAux_all e (textLeaves tree) 0 (by omega)
  have h0 := calcFold_out0 s e hse (textLeaves tree) 0 0 (Nat.zero_le s) (by omega)
  unfold charOffsetsToDOMPosition
  rw [hmax, hall, calculateDomPositionWithin_eq]
  exact h0

/-! ## Batch scheduler lemmas -/

theorem renderLoop_eq (l : List Ann) : renderLoop l = (l, 1) := by
  induction l using renderLoop.induct with
  | case1 l h ih =>
      rw [renderLoop, dif_pos h, ih]
      simp
  | case2 l h =>
      rw [renderLoop, dif_neg h]
      have h0 : (l.drop RENDER_BATCH_SIZE).length = 0 := by omega
      have h1 : l.length ≤ RENDER_BATCH_SIZE := by
        simp only [List.length_drop] at h0
        omega
      simp [List.take_of_length_le h1]

theorem initSchedule_eq (anns : List Ann) :
    initSchedule anns = (initHighlights anns, 1) := by
  unfold initSchedule
  exact renderLoop_eq _

/-! ## Wrap-branch analysis -/

theorem collect_texts (p : ED → Bool) :
    ∀ cs : List DNode, (∀ x ∈ cs, ∃ u, x = DNode.text u) →
      collectElemsList p cs = [] := by
  intro cs
  induction cs with
  | nil => intro _; rfl
  | cons x rest ih =>
      intro h
      obtain ⟨u, hu⟩ := h x (by simp)
      rw [hu]
      simp only [collectElemsList, collectElems, List.nil_append]
      exact ih (fun y hy => h y (by simp [hy]))

/-- The elements collected from one fresh wrapper node holding only text. -/
theorem collect_freshWrapper (p : ED → Bool) (cs : List DNode)
    (hcs : ∀ x ∈ cs, ∃ u, x = DNode.text u) :
    collectElemsList p [DNode.elem freshED cs]
      = if p freshED then [freshED] else [] := by
  simp only [collectElemsList, collectElems, List.append_nil]
  rw [collect_texts p cs hcs]
  simp

theorem collect_wrapMultiF_fresh (si a ei b k : Nat) (t : List Char) :
    collectElemsList (fun x => x.fresh) (wrapMultiF si a ei b k t)
      = if k = si ∨ k = ei ∨ (si < k ∧ k < ei) then [freshED] else [] := by
  unfold wrapMultiF
  by_cases hk : k = si
  · rw [if_pos hk, if_pos (Or.inl hk)]
    simp [collectElemsList, collectElems, collect_texts, freshED]
  · rw [if_neg hk]
    by_cases hk2 : k = ei
    · rw [if_pos hk2, if_pos (Or.inr (Or.inl hk2))]
      simp [collectElemsList, collectElems, collect_texts, freshED]
    · rw [if_neg hk2]
      by_cases hk3 : si < k ∧ k < ei
      · rw [if_pos hk3, if_pos (Or.inr (Or.inr hk3))]
        simp [collectElemsList, collectElems, collect_texts, freshED]
      · rw [if_neg hk3, if_neg (by tauto)]
        simp [collectElemsList, collectElems]

theorem mem_collect_wrapSameF (p : ED → Bool) (si a b k : Nat) (t : List Char) (ed : ED) :
    ed ∈ collectElemsList p (wrapSameF si a b k t) → ed = freshED := by
  unfold wrapSameF
  by_cases hk : k = si
  · rw [if_pos hk]
    intro h
    simp only [collectElemsList, collectElems, List.append_nil, List.nil_append] at h
    by_cases hp : p freshED = true
    · simpa [hp] using h
    · have hp' : p freshED = false := by revert hp; cases p freshED <;> simp
      simp [hp'] at h
  · rw [if_neg hk]
    intro h
    simp [collectElemsList, collectElems] at h

theorem mem_collect_wrapMultiF (p : ED → Bool) (si a ei b k : Nat) (t : List Char) (ed : ED) :
    ed ∈ collectElemsList p (wrapMultiF si a ei b k t) → ed = freshED := by
  unfold wrapMultiF
  by_cases hk : k = si
  · rw [if_pos hk]
    intro h
    simp only [collectElemsList, collectElems, List.append_nil, List.nil_append] at h
    by_cases hp : p freshED = true
    · simpa [hp] using h
    · have hp' : p freshED = false := by revert hp; cases p freshED <;> simp
      simp [hp'] at h
  · rw [if_neg hk]
    by_cases hk2 : k = ei
    · rw [if_pos hk2]
      intro h
      simp only [collectElemsList, collectElems, List.append_nil, List.nil_append] at h
      by_cases hp : p freshED = true
      · simpa [hp] using h
      · have hp' : p freshED = false := by revert hp; cases p freshED <;> simp
        simp [hp'] at h
    · rw [if_neg hk2]
      by_cases hk3 : si < k ∧ k < ei
      · rw [if_pos hk3]
        intro h
        simp only [collectElemsList, collectElems, List.append_nil, List.nil_append] at h
        by_cases hp : p freshED = true
        · simpa [hp] using h
        · have hp' : p freshED = false := by revert hp; cases p freshED <;> simp
          simp [hp'] at h
      · rw [if_neg hk3]
        intro h
        simp [collectElemsList, collectElems] at h

theorem idxElems_multi_after (si a ei b : Nat) (hsi : si < ei) :
    ∀ (ls : List (List Char)) (k : Nat), ei < k →
      idxElems (fun x => x.fresh) (wrapMultiF si a ei b) k ls = [] := by
  intro ls
  induction ls with
  | nil => intro k _; rfl
  | cons t rest ih =>
      intro k hk
      rw [idxElems, collect_wrapMultiF_fresh, if_neg (by omega), List.nil_append]
      exact ih (k + 1) (by omega)

theorem idxElems_multi_mid (si a ei b : Nat) (hsi : si < ei) :
    ∀ (ls : List (List Char)) (k : Nat), si < k → k ≤ ei → ei < k + ls.length →
      (idxElems (fun x => x.fresh) (wrapMultiF si a ei b) k ls).length = ei - k + 1 := by
  intro ls
  induction ls with
  | nil => intro k _ h2 h3; simp at h3; omega
  | cons t rest ih =>
      intro k h1 h2 h3
      by_cases hke : k = ei
      · rw [idxElems, collect_wrapMultiF_fresh, if_pos (Or.inr (Or.inl hke)),
          idxElems_multi_after si a ei b hsi rest (k + 1) (by omega)]
        simp [hke]
      · have hk3 : ei < (k + 1) + rest.length := by
          simp only [List.length_cons] at h3
          omega
        rw [idxElems, collect_wrapMultiF_fresh, if_pos (Or.inr (Or.inr ⟨h1, by omega⟩)),
          List.length_append, ih (k + 1) (by omega) (by omega) hk3]
        simp
        omega

theorem idxElems_multi_pre (si a ei b : Nat) (hsi : si < ei) :
    ∀ (ls : List (List Char)) (k : Nat), k ≤ si → ei < k + ls.length →
      (idxElems (fun x => x.fresh) (wrapMultiF si a ei b) k ls).length = ei - si + 1 := by
  intro ls
  induction ls with
  | nil => intro k h1 h2; simp at h2; omega
  | cons t rest ih =>
      intro k h1 h2
      have hk3 : ei < (k + 1) + rest.length := by
        simp only [List.length_cons] at h2
        omega
      by_cases hks : k = si
      · rw [idxElems, collect_wrapMultiF_fresh, if_pos (Or.inl hks), List.length_append,
          idxElems_multi_mid si a ei b hsi rest (k + 1) (by omega) (by omega) hk3]
        simp
        omega
      · rw [idxElems, collect_wrapMultiF_fresh, if_neg (by omega), List.nil_append,
          ih (k + 1) (by omega) hk3]

/-- Predicates commute with membership in the collected elements: an element
collected under one predicate and satisfying another is collected under the
other too. -/
theorem mem_collect_of_pred (q p : ED → Bool) (hq : ∀ x, p x = true → q x = true) : True := trivial

mutual

theorem mem_collect_pred (q p : ED → Bool) :
    ∀ (n : DNode) (ed : ED), ed ∈ collectElems q n → p ed = true → ed ∈ collectElems p n
  | .text _, ed => by intro h; simp [collectElems] at h
  | .elem d cs, ed => by
      intro h hp
      simp only [collectElems] at h ⊢
      rcases List.mem_append.mp h with h1 | h1
      · by_cases hq : q d = true
        · have hed : ed = d := by simpa [hq] using h1
          subst hed
          simp [hp]
        · have hq' : q d = false := by revert hq; cases q d <;> simp
          simp [hq'] at h1
      · exact List.mem_append.mpr (Or.inr (mem_collect_predList q p cs ed h1 hp))

theorem mem_collect_predList (q p : ED → Bool) :
    ∀ (cs : List DNode) (ed : ED),
      ed ∈ collectElemsList q cs → p ed = true → ed ∈ collectElemsList p cs
  | [], ed => by intro h; simp [collectElemsList] at h
  | n :: rest, ed => by
      intro h hp
      simp only [collectElemsList] at h ⊢
      rcases List.mem_append.mp h with h1 | h1
      · exact List.mem_append.mpr (Or.inl (mem_collect_pred q p n ed h1 hp))
      · exact List.mem_append.mpr (Or.inr (mem_collect_predList q p rest ed h1 hp))

end

/-- All sub-ranges of a multi-leaf wrap become attached markers: the returned
`spans` array has one entry per sub-range, and exactly that many fresh SPANs
are attached to the tree. -/
theorem wrapRange_attaches (d : ED) (cs : List DNode) (si a ei b : Nat)
    (hfresh : collectElems (fun x => x.fresh) (.elem d cs) = [])
    (hsi : si < ei) (hei : ei < (textLeaves (.elem d cs)).length)
    (ha : ((textLeaves (.elem d cs)).getD si []).length ≠ a) :
    ((wrapRange (.elem d cs) si a ei b).2).length = ei - si + 1 ∧
    (collectElems (fun x => x.fresh) ((wrapRange (.elem d cs) si a ei b).1)).length
      = ei - si + 1 := by
  have hne : si ≠ ei := Nat.ne_of_lt hsi
  have hfd : d.fresh = false := by
    by_contra hc
    have hft : d.fresh = true := by revert hc; cases d.fresh <;> simp
    simp [collectElems, hft] at hfresh
  have hfcs : collectElemsList (fun x => x.fresh) cs = [] := by
    simpa [collectElems, hfd] using hfresh
  constructor
  · unfold wrapRange
    rw [if_neg ha, if_neg hne]
    simp only [List.length_append, List.length_reverse, List.length_take,
      List.length_drop, List.length_cons, List.length_nil]
    simp only [textLeaves] at hei ⊢
    omega
  · unfold wrapRange
    rw [if_neg ha, if_neg hne]
    simp only [replaceLeaves, collectElems, hfd, Bool.false_eq_true, if_neg
      (by simp : ¬ (false : Bool) = true), List.nil_append]
    rw [collect_replaceLeavesList _ _ cs 0 hfcs]
    have := idxElems_multi_pre si a ei b hsi (textLeavesList cs) 0 (Nat.zero_le si)
      (by simpa [textLeaves] using hei)
    simpa using this

/-! ## Shape of normalized trees -/

def isTextN : DNode → Bool
  | .text _ => true
  | .elem _ _ => false

mutual

/-- DOM `Node.normalize()`'s postcondition, recursively: no empty text node and no
two adjacent text siblings anywhere. -/
def normalizedNode : DNode → Bool
  | .text s => !s.isEmpty
  | .elem _ cs => normalizedList cs

def normalizedList : List DNode → Bool
  | [] => true
  | [n] => normalizedNode n
  | n :: m :: rest => normalizedNode n && !(isTextN n && isTextN m) && normalizedList (m :: rest)

end

/-- What holds of each entry of a list fed to `mergeAdjacent` inside
`normalizeNode`: element children are already normalized (texts are
unconstrained — `mergeAdjacent` itself drops/merges them). -/
def childOk : DNode → Bool
  | .text _ => true
  | .elem _ cs => normalizedList cs

theorem normalizedList_cons (x : DNode) (ys : List DNode)
    (hx : normalizedNode x = true) (hys : normalizedList ys = true)
    (hadj : isTextN x = false ∨ ∀ m r, ys = m :: r → isTextN m = false) :
    normalizedList (x :: ys) = true := by
  match ys with
  | [] => simpa [normalizedList] using hx
  | m :: r =>
      have hm : isTextN x = false ∨ isTextN m = false := by
        rcases hadj with h | h
        · exact Or.inl h
        · exact Or.inr (h m r rfl)
      simp only [normalizedList, Bool.and_eq_true, Bool.not_eq_true']
      refine ⟨⟨hx, ?_⟩, hys⟩
      rcases hm with h | h <;> simp [h]

/-- The result of `mergeAdjacent` on recursively-normalized entries is a
normalized sibling list, and when it starts with a text node that text is
nonempty. -/
theorem mergeAdjacent_normalized :
    ∀ cs : List DNode, (∀ n ∈ cs, childOk n = true) →
      normalizedList (mergeAdjacent cs) = true ∧
      (∀ t r, mergeAdjacent cs = .text t :: r → t.isEmpty = false) := by
  intro cs
  induction cs with
  | nil => intro _; exact ⟨rfl, by intro t r h; simp [mergeAdjacent] at h⟩
  | cons n rest ih =>
      intro hok
      have ihr := ih (fun y hy => hok y (by simp [hy]))
      match n with
      | .text s =>
          by_cases hs : s.isEmpty
          · simpa [mergeAdjacent, hs] using ihr
          · have hs' : s.isEmpty = false := by revert hs; cases s.isEmpty <;> simp
            rcases hm : mergeAdjacent rest with - | ⟨m, rest'⟩
            · refine ⟨?_, ?_⟩
              · simp [mergeAdjacent, hs', hm, normalizedList, normalizedNode, hs']
              · intro t r h
                simp only [mergeAdjacent, hs', Bool.false_eq_true, if_neg
                  (by simp : ¬ False), hm] at h
                injection h with h1 h2
                injection h1 with h3
                rw [← h3]
                exact hs'
            · match m with
              | .text u =>
                  have hu : u.isEmpty = false := (ihr.2 u rest' hm)
                  have hnorm := ihr.1
                  rw [hm] at hnorm
                  refine ⟨?_, ?_⟩
                  · rw [mergeAdjacent]
                    simp only [hs', Bool.false_eq_true, if_neg (by simp : ¬ False), hm]
                    have hsu : (s ++ u).isEmpty = false := by
                      cases s with
                      | nil => simp at hs'
                      | cons c cr => simp
                    match rest' with
                    | [] => simpa [normalizedList, normalizedNode] using hsu
                    | m2 :: r2 =>
                        simp only [normalizedList, Bool.and_eq_true,
                          Bool.not_eq_true'] at hnorm ⊢
                        refine ⟨⟨by simpa [normalizedNode] using hsu, ?_⟩, hnorm.2⟩
                        have := hnorm.1.2
                        simpa [isTextN] using this
                  · intro t r h
                    rw [mergeAdjacent] at h
                    simp only [hs', Bool.false_eq_true, if_neg (by simp : ¬ False), hm] at h
                    injection h with h1 h2
                    injection h1 with h3
                    rw [← h3]
                    cases s with
                    | nil => simp at hs'
                    | cons c cr => simp
              | .elem d' cs' =>
                  have hnorm := ihr.1
                  rw [hm] at hnorm
                  refine ⟨?_, ?_⟩
                  · rw [mergeAdjacent]
                    simp only [hs', Bool.false_eq_true, if_neg (by simp : ¬ False), hm]
                    refine normalizedList_cons _ _ (by simpa [normalizedNode] using hs')
                      hnorm (Or.inr ?_)
                    intro m2 r2 h2
                    obtain ⟨hm2, _⟩ := List.cons.injEq .. ▸ h2
                    rw [← hm2]
                    rfl
                  · intro t r h
                    rw [mergeAdjacent] at h
                    simp only [hs', Bool.false_eq_true, if_neg (by simp : ¬ False), hm] at h
                    injection h with h1 h2
                    injection h1 with h3
                    rw [← h3]
                    exact hs'
      | .elem d cs' =>
          have hd : childOk (.elem d cs') = true := hok _ (by simp)
          have hm3 : mergeAdjacent (DNode.elem d cs' :: rest)
              = DNode.elem d cs' :: mergeAdjacent rest := rfl
          refine ⟨?_, ?_⟩
          · rw [hm3]
            exact normalizedList_cons _ _ (by simpa [normalizedNode, childOk] using hd)
              ihr.1 (Or.inl rfl)
          · intro t r h
            rw [hm3] at h
            exact absurd (List.cons.injEq .. ▸ h).1 (by simp)

mutual

theorem childOk_normalizeNode : ∀ n : DNode, childOk (normalizeNode n) = true
  | .text s => rfl
  | .elem d cs => by
      have h := childOk_normalizeList cs
      simp only [normalizeNode, childOk]
      exact (mergeAdjacent_normalized (normalizeList cs) h).1

theorem childOk_normalizeList :
    ∀ cs : List DNode, ∀ n ∈ normalizeList cs, childOk n = true
  | [] => by intro n h; simp [normalizeList] at h
  | x :: rest => by
      intro n h
      rw [normalizeList] at h
      rcases List.mem_cons.mp h with h1 | h1
      · rw [h1]
        exact childOk_normalizeNode x
      · exact childOk_normalizeList rest n h1

end

/-! ## Bridge lemmas for the claims -/

theorem concatText_mapElems (p : ED → Bool) (g : ED → ED) (n : DNode) :
    concatText (mapElems p g n) = concatText n := by
  unfold concatText
  rw [textLeaves_mapElems]

/-- The offset mapper on `[s, e]` (with `s < e` within the document) returns
exactly one position per offset, in order, each decoding back to its
character offset through the leaf running starts. -/
theorem mapper_decodes (tree : DNode) (s e : Nat) (hse : s < e)
    (he : e ≤ sumLen (textLeaves tree)) :
    ∃ ps pe, charOffsetsToDOMPosition tree [s, e] = [ps, pe]
      ∧ ps.charOffset = s ∧ pe.charOffset = e
      ∧ leafStart tree ps.node + ps.offset = s
      ∧ leafStart tree pe.node + pe.offset = e
      ∧ ps.node ≤ pe.node
      ∧ (ps.node = pe.node → ps.offset ≤ pe.offset)
      ∧ ps.offset ≤ ((textLeaves tree).getD ps.node []).length := by
  obtain ⟨ks, cs, ke, ce, hfs, hfe, hpos⟩ :=
    charOffsetsToDOMPosition_pair tree s e hse he
  obtain ⟨hks0, hksl, hcs, hcss, hcse⟩ :=
    findProp_bounds s (textLeaves tree) 0 0 ks cs hfs (Nat.zero_le s)
  obtain ⟨hke0, hkel, hce, hces, hcee⟩ :=
    findProp_bounds e (textLeaves tree) 0 0 ke ce hfe (Nat.zero_le e)
  obtain ⟨hkk, hcc⟩ := findProp_mono s e (Nat.le_of_lt hse) (textLeaves tree) 0 0 ks cs ke ce hfs hfe
  simp only [Nat.sub_zero, Nat.zero_add] at hcs hce hcse hcee hksl hkel
  refine ⟨⟨s, ks, s - cs⟩, ⟨e, ke, e - ce⟩, hpos, rfl, rfl, ?_, ?_, hkk, ?_, ?_⟩
  · show leafStart tree ks + (s - cs) = s
    simp only [leafStart]
    omega
  · show leafStart tree ke + (e - ce) = e
    simp only [leafStart]
    omega
  · intro hnode
    show s - cs ≤ e - ce
    have hcec : cs = ce := by
      rw [hcs, hce, show ks = ke from hnode]
    omega
  · show s - cs ≤ ((textLeaves tree).getD ks []).length
    omega

theorem concatText_addAnnotation (d : ED) (cs : List DNode) (a : Ann)
    (fmt : Option (Ann → FormatVal))
    (hse : a.start < a.end_) (he : a.end_ ≤ sumLen (textLeaves (.elem d cs))) :
    concatText ( addAnnotation fmt (.elem d cs) a) = concatText (.elem d cs) := by
  by_cases hsh : a.type = "shadow"
  · unfold addAnnotation
    rw [if_pos hsh]
    exact concatText_removeAnnotation _ _
  · obtain ⟨ps, pe, hpos, _, _, _, _, _, hsame, _⟩ :=
      mapper_decodes (.elem d cs) a.start a.end_ hse he
    unfold addAnnotation
    rw [if_neg hsh, hpos]
    show concatText (applyStyles fmt a ( bindAnnotation (fun x => x.fresh) a
      ((wrapRange (.elem d cs) ps.node ps.offset pe.node pe.offset).1))) = _
    unfold applyStyles bindAnnotation
    rw [concatText_mapElems, concatText_mapElems]
    exact wrapRange_concat d cs ps.node ps.offset pe.node pe.offset hsame

/-- Everything collected from a `wrapRange` result was either already in the
tree or is a freshly created SPAN. -/
theorem wrapRange_members (d : ED) (cs : List DNode) (si a ei b : Nat)
    (p : ED → Bool) (ed : ED)
    (hmem : ed ∈ collectElems p ((wrapRange (.elem d cs) si a ei b).1)) :
    ed ∈ collectElems p (.elem d cs) ∨ ed = freshED := by
  revert hmem
  unfold wrapRange
  split_ifs with h1 h2
  · exact fun h => Or.inl h
  · intro hmem
    simp only [replaceLeaves, collectElems] at hmem
    rcases List.mem_append.mp hmem with h | h
    · exact Or.inl (by simp only [collectElems]; exact List.mem_append.mpr (Or.inl h))
    · rcases mem_collect_replaceLeavesList p (wrapSameF si a b) cs 0 ed h with h3 | ⟨k', t, h3⟩
      · exact Or.inl (by simp only [collectElems]; exact List.mem_append.mpr (Or.inr h3))
      · exact Or.inr (mem_collect_wrapSameF p si a b k' t ed h3)
  · intro hmem
    simp only [replaceLeaves, collectElems] at hmem
    rcases List.mem_append.mp hmem with h | h
    · exact Or.inl (by simp only [collectElems]; exact List.mem_append.mpr (Or.inl h))
    · rcases mem_collect_replaceLeavesList p (wrapMultiF si a ei b) cs 0 ed h with h3 | ⟨k', t, h3⟩
      · exact Or.inl (by simp only [collectElems]; exact List.mem_append.mpr (Or.inr h3))
      · exact Or.inr (mem_collect_wrapMultiF p si a ei b k' t ed h3)

/-! ## Concrete inputs for the claims -/

/-- A plain (non-marker, non-fresh) element. -/
def plainED (c : String) : ED := ⟨false, c, "", none, "", []⟩

/-- Container with three single-leaf paragraphs "ab", "cd", "ef". -/
def treeC3 : DNode :=
  .elem (plainED ("")) [.elem (plainED ("p")) [.text ("ab").toList],
    .elem (plainED ("p")) [.text ("cd").toList], .elem (plainED ("p")) [.text ("ef").toList]]

def treeC2 : DNode :=
  .elem (plainED ("")) [.elem (plainED ("p")) [.text ("one").toList],
    .elem (plainED ("p")) [.text ("two").toList], .elem (plainED ("p")) [.text ("six").toList]]

/-- Container with a single leaf "Hello" (total length 5). -/
def treeC4 : DNode := .elem (plainED ("")) [.elem (plainED ("p")) [.text ("Hello").toList]]

/-- Container with leaves "Hello " (6 chars) and "world" (5 chars). -/
def treeC7 : DNode :=
  .elem (plainED ("")) [.elem (plainED ("p")) [.text ("Hello ").toList],
    .elem (plainED ("p")) [.text ("world").toList]]

def treeC1 : DNode :=
  .elem (plainED ("")) [.elem (plainED ("p")) [.text ("Hello ").toList],
    .elem (plainED ("p")) [.text ("world").toList]]

def treeC8 : DNode := .elem (plainED ("")) [.elem (plainED ("p")) [.text ("Hi").toList]]

/-- A container already holding one rendered marker for id `x1`. -/
def markerC6 : ED := ⟨false, "r6o-annotation", "x1", some ⟨"x1", "normal", true, 0, 2⟩, "", []⟩

def treeC6 : DNode :=
  .elem (plainED ("")) [.elem markerC6 [.text ("Hi").toList], .elem (plainED ("p")) [.text ("!").toList]]

def shadowC6 : Ann := ⟨"x1", "shadow", true, 0, 2⟩

def treeC10 : DNode :=
  .elem (plainED ("")) [.elem markerC6 [.text ("Hi").toList], .text ("").toList,
    .text (" there").toList, .text ("!").toList]

/-- Modelled from the spec (§4.2 Range Decomposer), for comparison with the
source's `wrapRange`: the sub-ranges a span decomposes into — same-leaf span,
or head (dropped when empty) + full in-between leaves + tail. -/
def specSubRanges (leaves : List (List Char)) (si a ei b : Nat) : List (List Char) :=
  if si = ei then [((leaves.getD si []).drop a).take (b - a)]
  else
    (if a = (leaves.getD si []).length then [] else [(leaves.getD si []).drop a])
      ++ (leaves.drop (si + 1)).take (ei - si - 1)
      ++ [(leaves.getD ei []).take b]

/-- The rendered markers strictly under a container root
(`el.querySelectorAll('.r6o-annotation')` matches descendants only). -/
def markersUnder : DNode → List ED
  | .elem _ cs => collectElemsList isMarker cs
  | .text _ => []

/-- Whether a container's children satisfy `Node.normalize()`'s postcondition
(no empty text fragments, no adjacent text siblings, recursively). -/
def childrenNormalized : DNode → Bool
  | .elem _ cs => normalizedList cs
  | .text s => !s.isEmpty

/-! ## The claims -/

/-- C3 counterexample: over leaves "ab","cd","ef", the span `{2,5}` starts
exactly at the boundary of the first leaf: the mapper resolves offset 2 to
leaf 0 at local offset 2 (the leaf's full length) and offset 5 into leaf 2,
so the span continues into later leaves; yet `wrapRange` returns `[]` and
leaves the tree untouched — the remainder (full leaf "cd" and "e") is NOT
wrapped, contradicting the claim. -/
theorem C3_ce :
    charOffsetsToDOMPosition treeC3 [2, 5] = [⟨2, 0, 2⟩, ⟨5, 2, 1⟩]
    ∧ wrapRange treeC3 0 2 2 1 = (treeC3, []) := by
  exact ⟨rfl, rfl⟩

/-- C3 (amended): when the start position's local offset equals the start
leaf's full text length, `wrapRange` drops the ENTIRE span: it returns no
spans and performs no tree mutation — the empty head produces no zero-width
marker, but the remainder of the span is not wrapped either. -/
theorem C3_thm (tree : DNode) (si a ei b : Nat)
    (h : ((textLeaves tree).getD si []).length = a) :
    wrapRange tree si a ei b = (tree, []) := by
  unfold wrapRange
  rw [if_pos h]

/-- C3 witness: the amended theorem at the concrete boundary-start input. -/
theorem C3_thm_witness :
    ((textLeaves treeC3).getD 0 []).length = 2
    ∧ wrapRange treeC3 0 2 2 1 = (treeC3, []) :=
  ⟨by decide, C3_thm treeC3 0 2 2 1 (by decide)⟩

/-- C4 counterexample: on the single-leaf document "Hello" (length 5), the
requested offsets `[2, 7]` yield the silently shorter result `[⟨2,0,2⟩]` —
offset 7 is simply dropped; no "OffsetOutOfRange" (or any) error value
exists anywhere in the mapper, contradicting the claimed hard failure. -/
theorem C4_ce :
    charOffsetsToDOMPosition treeC4 [2, 7] = [⟨2, 0, 2⟩]
    ∧ (charOffsetsToDOMPosition treeC4 [2, 7]).length < [2, 7].length := by
  exact ⟨rfl, by decide⟩

/-- C4 (amended): an offset strictly beyond the document's total character
length is silently dropped by the mapper — no returned position carries it
and the result is shorter than the request; `_addAnnotation` then fails on
the `[domStart, domEnd]` destructuring inside its `try`, leaving the tree
unchanged (warning only). -/
theorem C4_thm (tree : DNode) (a : Ann) (fmt : Option (Ann → FormatVal))
    (hse : a.start < a.end_) (hout : sumLen (textLeaves tree) < a.end_)
    (hsh : a.type ≠ "shadow") :
    (∀ q ∈ charOffsetsToDOMPosition tree [a.start, a.end_], q.charOffset ≠ a.end_)
    ∧ (charOffsetsToDOMPosition tree [a.start, a.end_]).length < 2
    ∧ addAnnotation fmt tree a = tree := by
  rcases charOffsetsToDOMPosition_out tree a.start a.end_ hse hout with h | ⟨ks, cs, _, h⟩
  · refine ⟨?_, ?_, ?_⟩
    · rw [h]; intro q hq; simp at hq
    · rw [h]; simp
    · unfold addAnnotation
      rw [if_neg hsh, h]
  · refine ⟨?_, ?_, ?_⟩
    · rw [h]
      intro q hq
      have : q = ⟨a.start, ks, a.start - cs⟩ := by simpa using hq
      rw [this]
      show a.start ≠ a.end_
      omega
    · rw [h]; simp
    · unfold addAnnotation
      rw [if_neg hsh, h]

/-- C4 witness: the amended theorem on "Hello" with the annotation `{2,7}`. -/
theorem C4_thm_witness :
    (2 : Nat) < 7 ∧ sumLen (textLeaves treeC4) < 7
    ∧ ((∀ q ∈ charOffsetsToDOMPosition treeC4 [2, 7], q.charOffset ≠ 7)
        ∧ (charOffsetsToDOMPosition treeC4 [2, 7]).length < 2
        ∧ addAnnotation none treeC4 ⟨"c4", "normal", true, 2, 7⟩ = treeC4) :=
  ⟨by decide, by decide,
    C4_thm treeC4 ⟨"c4", "normal", true, 2, 7⟩ none (by decide) (by decide) (by decide)⟩

/-- C5: `init` discards annotations without a `TextPositionSelector` or of
type "shadow" before batching, processes the remainder in non-increasing
`start` order (a permutation of the filtered set), and `resolve()` fires
exactly once, after the last `RENDER_BATCH_SIZE`-sized chunk. -/
theorem C5_thm (anns : List Ann) :
    (initSchedule anns).2 = 1
    ∧ (initSchedule anns).1.Perm (initFilter anns)
    ∧ List.Sorted startGE (initSchedule anns).1
    ∧ ∀ x ∈ (initSchedule anns).1, x.hasTextPositionSelector = true ∧ x.type ≠ "shadow" := by
  rw [initSchedule_eq]
  refine ⟨rfl, ?_, ?_, ?_⟩
  · exact List.perm_insertionSort startGE (initFilter anns)
  · exact List.sorted_insertionSort startGE (initFilter anns)
  · intro x hx
    have hx' : x ∈ initFilter anns :=
      (List.Perm.mem_iff (List.perm_insertionSort startGE (initFilter anns))).mp hx
    have := List.mem_filter.mp hx'
    have hp := this.2
    simp only [Bool.and_eq_true, decide_eq_true_eq] at hp
    exact hp

/-- C7: a character offset lying exactly on the boundary between leaf `i`
and leaf `i+1` (it equals leaf `i`'s running end, which is leaf `i+1`'s
running start) is assigned to the earlier leaf `i` with local offset equal to
that leaf's full length, and the mapper emits exactly one position for it. -/
theorem C7_thm (tree : DNode) (s e i : Nat) (hse : s < e)
    (he : e ≤ sumLen (textLeaves tree)) (hi : i + 1 < (textLeaves tree).length)
    (hb : s = sumLen ((textLeaves tree).take (i + 1)))
    (hnz : sumLen ((textLeaves tree).take i) < s) :
    ∃ pe, charOffsetsToDOMPosition tree [s, e]
        = [⟨s, i, ((textLeaves tree).getD i []).length⟩, pe]
      ∧ pe.charOffset = e
      ∧ ((charOffsetsToDOMPosition tree [s, e]).filter
          (fun q => q.charOffset == s)).length = 1 := by
  obtain ⟨ks, cs, ke, ce, hfs, hfe, hpos⟩ :=
    charOffsetsToDOMPosition_pair tree s e hse he
  have hbd : findProp s (textLeaves tree) 0 0
      = some (0 + i, 0 + sumLen ((textLeaves tree).take i)) :=
    findProp_boundary s (textLeaves tree) i 0 0 (by omega) (by omega) (by omega)
  rw [hfs] at hbd
  obtain ⟨hk, hc⟩ := Prod.mk.injEq .. ▸ (Option.some.inj hbd)
  have hoff : s - cs = ((textLeaves tree).getD i []).length := by
    have hstep := sumLen_take_succ (textLeaves tree) i (by omega)
    omega
  refine ⟨⟨e, ke, e - ce⟩, ?_, rfl, ?_⟩
  · rw [hpos, hk, hoff]
    simp
  · rw [hpos]
    have hne : (e == s) = false := by
      simp only [beq_eq_false_iff_ne, ne_eq]
      omega
    simp [List.filter, hne]

/-- C7 witness: leaves "Hello " and "world"; offset 6 is the boundary of
leaves 0 and 1 and resolves to leaf 0 at local offset 6. -/
theorem C7_thm_witness :
    ∃ pe, charOffsetsToDOMPosition treeC7 [6, 8]
        = [⟨6, 0, ((textLeaves treeC7).getD 0 []).length⟩, pe]
      ∧ pe.charOffset = 8
      ∧ ((charOffsetsToDOMPosition treeC7 [6, 8]).filter
          (fun q => q.charOffset == 6)).length = 1 :=
  C7_thm treeC7 6 8 0 (by decide) (by decide) (by decide) (by decide) (by decide)

/-- C8 counterexample: `overrideId` on an id with no rendered marker crashes
with an uncaught `TypeError` (`allSpans[0].annotation` on an empty NodeList)
instead of warning and doing nothing. -/
theorem C8_ce :
    overrideId treeC8 ("missing") "forced"
      = .error ("TypeError: Cannot read properties of undefined") := by
  exact rfl

/-- C8 (amended): when no marker matches, `findAnnotationSpans` returns `[]`
with a warning and `removeAnnotation` only re-normalizes the tree (text
content untouched; exactly the identity on an already-normalized tree), but
`force-identity-override` (`overrideId`) throws an uncaught `TypeError`
rather than being a warning no-op. -/
theorem C8_thm (d : ED) (cs : List DNode) (i f : String)
    (hno : findAnnotationSpans (.elem d cs) i = []) :
    removeAnnotation (.elem d cs) i = normalizeNode (.elem d cs)
    ∧ concatText ( removeAnnotation (.elem d cs) i) = concatText (.elem d cs)
    ∧ ∃ msg, overrideId (.elem d cs) i f = .error msg := by
  have hcl : collectElemsList (matchesId i) cs = [] := by
    have h0 := hno
    unfold findAnnotationSpans at h0
    simp only [collectElems, List.append_eq_nil] at h0
    exact h0.2
  refine ⟨?_, concatText_removeAnnotation _ _, ?_⟩
  · show DNode.elem d (mergeAdjacent (normalizeList (unwrapMatchingList (matchesId i) cs)))
        = DNode.elem d (mergeAdjacent (normalizeList cs))
    rw [unwrapMatchingList_of_none (matchesId i) cs hcl]
  · unfold overrideId
    rw [hno]
    exact ⟨_, rfl⟩

/-- C8 witness: the amended theorem on a marker-free container. -/
theorem C8_thm_witness :
    findAnnotationSpans treeC8 ("missing") = []
    ∧ ( removeAnnotation treeC8 ("missing") = normalizeNode treeC8
        ∧ concatText ( removeAnnotation treeC8 ("missing")) = concatText treeC8
        ∧ ∃ msg, overrideId treeC8 ("missing") "forced" = .error msg) := by
  refine ⟨by decide, ?_⟩
  have h := C8_thm (plainED ("")) [.elem (plainED ("p")) [.text ("Hi").toList]] "missing" "forced"
    (by decide)
  exact h

/-- C10: after `clear()`, no annotation marker remains anywhere under the
container, the concatenated plain-text content is unchanged, and the
children have been normalized: every marker was replaced in place by its
content, empty text fragments dropped and adjacent text fragments merged. -/
theorem C10_thm (d : ED) (cs : List DNode) :
    concatText (clear (.elem d cs)) = concatText (.elem d cs)
    ∧ markersUnder (clear (.elem d cs)) = []
    ∧ childrenNormalized (clear (.elem d cs)) = true := by
  refine ⟨concatText_clear _, ?_, ?_⟩
  · show collectElemsList isMarker
        (mergeAdjacent (normalizeList (unwrapMatchingList isMarker cs))) = []
    rw [collect_mergeAdjacent, collect_normalizeList]
    exact collect_unwrapMatchingList isMarker _
  · show normalizedList
        (mergeAdjacent (normalizeList (unwrapMatchingList isMarker cs))) = true
    exact (mergeAdjacent_normalized _ (childOk_normalizeList _)).1

mutual

/-- Every collected element satisfies the predicate it was collected under. -/
theorem collect_pred_of_mem (q : ED → Bool) :
    ∀ (n : DNode) (ed : ED), ed ∈ collectElems q n → q ed = true
  | .text _, ed => by intro h; simp [collectElems] at h
  | .elem d cs, ed => by
      intro h
      simp only [collectElems] at h
      rcases List.mem_append.mp h with h1 | h1
      · by_cases hq : q d = true
        · have hed : ed = d := by simpa [hq] using h1
          rw [hed]; exact hq
        · have hq' : q d = false := by revert hq; cases q d <;> simp
          simp [hq'] at h1
      · exact collect_pred_of_memList q cs ed h1

theorem collect_pred_of_memList (q : ED → Bool) :
    ∀ (cs : List DNode) (ed : ED), ed ∈ collectElemsList q cs → q ed = true
  | [], ed => by intro h; simp [collectElemsList] at h
  | n :: rest, ed => by
      intro h
      simp only [collectElemsList] at h
      rcases List.mem_append.mp h with h1 | h1
      · exact collect_pred_of_mem q n ed h1
      · exact collect_pred_of_memList q rest ed h1

end

/-- C2 counterexample: over leaves "one","two","six", the annotation span
`{3,7}` decomposes (per the spec's own decomposition rules, modelled by
`specSubRanges`) into the two sub-ranges "two" and "s"; yet `wrapRange`
attaches no marker at all (early return on the boundary start), without any
wrap failure, warning or skip path being taken — neither disjunct of the
claim holds. -/
theorem C2_ce :
    specSubRanges (textLeaves treeC2) 0 3 2 1 = ["two".toList, "s".toList]
    ∧ wrapRange treeC2 0 3 2 1 = (treeC2, [])
    ∧ collectElems (fun x => x.fresh) ((wrapRange treeC2 0 3 2 1).1) = [] :=
  ⟨rfl, rfl, rfl⟩

/-- C2 (amended): except when the start position's local offset equals the
start leaf's full length (where `wrapRange` silently drops the whole span —
see C3), a multi-leaf wrap attaches every sub-range: the returned `spans`
array has one entry per sub-range (`ei - si + 1` of them) and exactly that
many new SPANs are attached to the tree; the `surroundContents` failure path
is unreachable for the single-text-node sub-ranges the mapper produces, so
the discard-on-partial-failure branch never runs. -/
theorem C2_thm (d : ED) (cs : List DNode) (si a ei b : Nat)
    (hfresh : collectElems (fun x => x.fresh) (.elem d cs) = [])
    (hsi : si < ei) (hei : ei < (textLeaves (.elem d cs)).length)
    (ha : ((textLeaves (.elem d cs)).getD si []).length ≠ a) :
    ((wrapRange (.elem d cs) si a ei b).2).length = ei - si + 1
    ∧ (collectElems (fun x => x.fresh) ((wrapRange (.elem d cs) si a ei b).1)).length
      = ei - si + 1 :=
  wrapRange_attaches d cs si a ei b hfresh hsi hei ha

/-- C2 witness: wrapping `{1,7}` (leaf 0 offset 1 to leaf 2 offset 1) over
"one","two","six" yields three spans, all attached. -/
theorem C2_thm_witness :
    collectElems (fun x => x.fresh) treeC2 = []
    ∧ ((wrapRange treeC2 0 1 2 1).2).length = 2 - 0 + 1
    ∧ (collectElems (fun x => x.fresh) ((wrapRange treeC2 0 1 2 1).1)).length = 2 - 0 + 1 := by
  have h := C2_thm (plainED ("")) [.elem (plainED ("p")) [.text ("one").toList],
    .elem (plainED ("p")) [.text ("two").toList], .elem (plainED ("p")) [.text ("six").toList]]
    0 1 2 1 (by decide) (by decide) (by decide) (by decide)
  exact ⟨by decide, h.1, h.2⟩

/-- C6 counterexample: a container already holding a marker with id "x1";
rendering the shadow annotation with that id through `init` leaves the tree
— and the prior marker — completely untouched, because `init` filters shadow
annotations out before `_addAnnotation` (whose removal branch is therefore
dead on this path). -/
theorem C6_ce :
    initTree none treeC6 [shadowC6] = treeC6
    ∧ findAnnotationSpans (initTree none treeC6 [shadowC6]) "x1" = [markerC6] := by
  have h : initTree none treeC6 [shadowC6] = treeC6 := by
    unfold initTree
    rw [initSchedule_eq]
    rfl
  exact ⟨h, by rw [h]; rfl⟩

/-- C6 (amended): a "shadow" annotation never reaches `_addAnnotation` via
`init` (it is discarded before batching, so zero markers are produced and
prior markers are NOT removed on that path); prior markers with its id ARE
removed when the shadow annotation goes through `_addAnnotation` directly or
through `addOrUpdateAnnotation`, which also add no new marker. -/
theorem C6_thm (anns : List Ann) (d : ED) (cs : List DNode) (a : Ann)
    (fmt : Option (Ann → FormatVal)) (maybePrev : Option Ann)
    (hsh : a.type = "shadow") (hroot : matchesId a.id d = false) :
    a ∉ (initSchedule anns).1
    ∧ findAnnotationSpans ( addAnnotation fmt (.elem d cs) a) a.id = []
    ∧ findAnnotationSpans ( addOrUpdateAnnotation fmt (.elem d cs) a maybePrev) a.id = [] := by
  refine ⟨?_, ?_, ?_⟩
  · rw [initSchedule_eq]
    intro hmem
    have hx' : a ∈ initFilter anns :=
      (List.Perm.mem_iff (List.perm_insertionSort startGE (initFilter anns))).mp hmem
    have hp := (List.mem_filter.mp hx').2
    simp only [Bool.and_eq_true, decide_eq_true_eq] at hp
    exact hp.2 hsh
  · unfold addAnnotation
    rw [if_pos hsh]
    show collectElems (matchesId a.id)
        (DNode.elem d (mergeAdjacent (normalizeList (unwrapMatchingList (matchesId a.id) cs)))) = []
    simp only [collectElems, hroot, Bool.false_eq_true, if_neg
      (by simp : ¬ (false : Bool) = true), List.nil_append]
    rw [collect_mergeAdjacent, collect_normalizeList]
    exact collect_unwrapMatchingList _ _
  · have himp : ∀ x : ED, matchesId a.id x = true → pmOf a maybePrev x = true := by
      intro x hx
      unfold pmOf
      simp [hx]
    have hshadow : ¬ a.type ≠ "shadow" := by simp [hsh]
    have hstep : addOrUpdateAnnotation fmt (.elem d cs) a maybePrev
        = if (collectElems (pmOf a maybePrev) (DNode.elem d cs)).length > 0
          then DNode.elem d
            (mergeAdjacent (normalizeList (unwrapMatchingList (pmOf a maybePrev) cs)))
          else DNode.elem d cs := by
      show (if a.type ≠ "shadow"
          then addAnnotation fmt
            (if (collectElems (pmOf a maybePrev) (DNode.elem d cs)).length > 0
              then DNode.elem d
                (mergeAdjacent (normalizeList (unwrapMatchingList (pmOf a maybePrev) cs)))
              else DNode.elem d cs) a
          else (if (collectElems (pmOf a maybePrev) (DNode.elem d cs)).length > 0
              then DNode.elem d
                (mergeAdjacent (normalizeList (unwrapMatchingList (pmOf a maybePrev) cs)))
              else DNode.elem d cs)) = _
      rw [if_neg hshadow]
    rw [hstep]
    by_cases hsp : (collectElems (pmOf a maybePrev) (DNode.elem d cs)).length > 0
    · rw [if_pos hsp]
      show collectElems (matchesId a.id)
          (DNode.elem d (mergeAdjacent (normalizeList
            (unwrapMatchingList (pmOf a maybePrev) cs)))) = []
      simp only [collectElems, hroot, Bool.false_eq_true,
        if_neg (by simp : ¬ (false : Bool) = true), List.nil_append]
      rw [collect_mergeAdjacent, collect_normalizeList]
      rw [List.eq_nil_iff_forall_not_mem]
      intro ed hed
      have hq : matchesId a.id ed = true := collect_pred_of_memList _ _ ed hed
      have hmem := mem_collect_predList (matchesId a.id) _ _ ed hed (himp ed hq)
      rw [collect_unwrapMatchingList] at hmem
      simp at hmem
    · rw [if_neg hsp]
      show collectElems (matchesId a.id) (DNode.elem d cs) = []
      rw [List.eq_nil_iff_forall_not_mem]
      intro ed hed
      have hq : matchesId a.id ed = true := collect_pred_of_mem _ _ ed hed
      have hmem := mem_collect_pred (matchesId a.id) _ _ ed hed (himp ed hq)
      exact hsp (List.length_pos.mpr (List.ne_nil_of_mem hmem))

/-- C6 witness: the amended theorem on the container holding a prior "x1"
marker, with the shadow annotation of the same id. -/
theorem C6_thm_witness :
    shadowC6.type = "shadow" ∧ matchesId shadowC6.id (plainED ("")) = false
    ∧ (shadowC6 ∉ (initSchedule [shadowC6]).1
        ∧ findAnnotationSpans ( addAnnotation none treeC6 shadowC6) shadowC6.id = []
        ∧ findAnnotationSpans
            ( addOrUpdateAnnotation none treeC6 shadowC6 none) shadowC6.id = []) :=
  ⟨rfl, by decide,
    C6_thm [shadowC6] (plainED (""))
      [.elem markerC6 [.text ("Hi").toList], .elem (plainED ("p")) [.text ("!").toList]]
      shadowC6 none none rfl (by decide)⟩

/-- C1: wrapping an annotation (`_addAnnotation`: map offsets, `wrapRange`,
bind, style) and then unwrapping it (`removeAnnotation` =
`_unwrapHighlightings` + `normalize()`) restores the container's concatenated
leaf text exactly, and re-running `charOffsetsToDOMPosition` over the
container reproduces positions that decode to the exact original `(start,
end)` offsets. -/
theorem C1_thm (d : ED) (cs : List DNode) (a : Ann) (fmt : Option (Ann → FormatVal))
    (hse : a.start < a.end_) (he : a.end_ ≤ sumLen (textLeaves (.elem d cs))) :
    concatText ( removeAnnotation ( addAnnotation fmt (.elem d cs) a) a.id)
      = concatText (.elem d cs)
    ∧ ∃ ps pe,
        charOffsetsToDOMPosition ( removeAnnotation ( addAnnotation fmt (.elem d cs) a) a.id)
            [a.start, a.end_] = [ps, pe]
        ∧ ps.charOffset = a.start ∧ pe.charOffset = a.end_
        ∧ leafStart ( removeAnnotation ( addAnnotation fmt (.elem d cs) a) a.id) ps.node
            + ps.offset = a.start
        ∧ leafStart ( removeAnnotation ( addAnnotation fmt (.elem d cs) a) a.id) pe.node
            + pe.offset = a.end_ := by
  have hc : concatText ( removeAnnotation ( addAnnotation fmt (.elem d cs) a) a.id)
      = concatText (.elem d cs) :=
    ( concatText_removeAnnotation _ _).trans ( concatText_addAnnotation d cs a fmt hse he)
  have he2 : a.end_ ≤ sumLen (textLeaves ( removeAnnotation
      ( addAnnotation fmt (.elem d cs) a) a.id)) := by
    rw [sumLen_flatten]
    show a.end_ ≤ (concatText _).length
    rw [hc]
    show a.end_ ≤ (concatText (DNode.elem d cs)).length
    rw [concatText, ← sumLen_flatten]
    exact he
  obtain ⟨ps, pe, hpos, hcs, hce, hds, hde, _, _, _⟩ :=
    mapper_decodes ( removeAnnotation ( addAnnotation fmt (.elem d cs) a) a.id)
      a.start a.end_ hse he2
  exact ⟨hc, ps, pe, hpos, hcs, hce, hds, hde⟩

/-- C1 witness: the round trip on leaves "Hello " / "world" with the
annotation `{3,8}`. -/
theorem C1_thm_witness :
    concatText ( removeAnnotation
        ( addAnnotation none treeC1 ⟨"c1", "normal", true, 3, 8⟩) "c1")
      = concatText treeC1
    ∧ ∃ ps pe,
        charOffsetsToDOMPosition ( removeAnnotation
            ( addAnnotation none treeC1 ⟨"c1", "normal", true, 3, 8⟩) "c1") [3, 8] = [ps, pe]
        ∧ ps.charOffset = 3 ∧ pe.charOffset = 8
        ∧ leafStart ( removeAnnotation
            ( addAnnotation none treeC1 ⟨"c1", "normal", true, 3, 8⟩) "c1") ps.node
            + ps.offset = 3
        ∧ leafStart ( removeAnnotation
            ( addAnnotation none treeC1 ⟨"c1", "normal", true, 3, 8⟩) "c1") pe.node
            + pe.offset = 8 :=
  C1_thm (plainED ("")) [.elem (plainED ("p")) [.text ("Hello ").toList],
    .elem (plainED ("p")) [.text ("world").toList]] ⟨"c1", "normal", true, 3, 8⟩ none
    (by decide) (by decide)

/-- The element data every marker of a freshly rendered annotation ends up
with: a fresh SPAN, bound to the annotation (`bindAnnotation`) and then
styled (`applyStyles`) with the formatter result `v`. -/
def styledED (v : FormatVal) (a : Ann) : ED := styleF v (bindF a freshED)

/-- C9 counterexample: with a formatter returning the (truthy) class string
"highlight", `applyStyles` invokes the formatter twice for the annotation —
once in the guard `if (this.formatter && this.formatter(annotation))` and
once in `const format = this.formatter(annotation)` — not exactly once as
claimed. -/
theorem C9_ce :
    formatterCallCount (some (fun _ => FormatVal.strv ("highlight")))
        ⟨"c9", "normal", true, 0, 3⟩ = 2
    ∧ formatterCallCount (some (fun _ => FormatVal.strv ("highlight")))
        ⟨"c9", "normal", true, 0, 3⟩ ≠ 1 :=
  ⟨rfl, by decide⟩

/-- C9 (amended): the formatter is called twice per rendered annotation when
its result is truthy (guard + use) and once when falsy; its result is applied
uniformly to every marker of the annotation: after `_addAnnotation` on a
container holding no prior span for the id, every element carrying the
annotation's id is exactly the bound-and-styled fresh SPAN `styledED` —
class `('r6o-annotation ' + extraClasses).trim()`, the formatter's `data-*`
attributes and style, and the annotation back-reference. -/
theorem C9_thm (d : ED) (cs : List DNode) (f : Ann → FormatVal) (a : Ann)
    (hfresh : collectElems (fun x => x.fresh) (.elem d cs) = [])
    (hid : collectElems (fun x => x.dataId == a.id) (.elem d cs) = [])
    (hsh : a.type ≠ "shadow") :
    formatterCallCount (some f) a = (if (f a).truthy then 2 else 1)
    ∧ ∀ ed ∈ collectElems (fun x => x.dataId == a.id)
        ( addAnnotation (some f) (.elem d cs) a),
      ed = styledED (if (f a).truthy then f a else FormatVal.undef) a := by
  refine ⟨rfl, ?_⟩
  unfold addAnnotation
  rw [if_neg hsh]
  rcases charOffsetsToDOMPosition (DNode.elem d cs) [a.start, a.end_]
    with - | ⟨p1, - | ⟨p2, rest⟩⟩
  · intro ed hed
    have hed' : ed ∈ collectElems (fun x => x.dataId == a.id) (DNode.elem d cs) := hed
    rw [hid] at hed'
    simp at hed'
  · intro ed hed
    have hed' : ed ∈ collectElems (fun x => x.dataId == a.id) (DNode.elem d cs) := hed
    rw [hid] at hed'
    simp at hed'
  · show ∀ ed ∈ collectElems (fun x => x.dataId == a.id)
        (mapElems (fun x => x.fresh)
          (styleF (if (f a).truthy then f a else FormatVal.undef))
          (mapElems (fun x => x.fresh) (bindF a)
            ((wrapRange (DNode.elem d cs) p1.node p1.offset p2.node p2.offset).1))),
      ed = styledED (if (f a).truthy then f a else FormatVal.undef) a
    intro ed hed
    rw [collect_mapElems, collect_mapElems] at hed
    simp only [List.mem_map] at hed
    obtain ⟨x1, ⟨d0, hd0, hh1⟩, hh2⟩ := hed
    have hP := collect_pred_of_mem _ _ _ hd0
    rcases wrapRange_members d cs p1.node p1.offset p2.node p2.offset _ d0 hd0
      with hin | hfr
    · by_cases hf : d0.fresh = true
      · have hmemf := mem_collect_pred _ (fun x => x.fresh)
          (DNode.elem d cs) d0 hin hf
        rw [hfresh] at hmemf
        simp at hmemf
      · have hf' : d0.fresh = false := by revert hf; cases d0.fresh <;> simp
        have hq : (d0.dataId == a.id) = true := by
          simpa [hf'] using hP
        have hmemq := mem_collect_pred _ (fun x => x.dataId == a.id)
          (DNode.elem d cs) d0 hin hq
        rw [hid] at hmemq
        simp at hmemq
    · subst hfr
      rw [← hh1] at hh2
      rw [← hh2]
      rfl

/-- C9 witness: the amended theorem on a marker-free two-leaf container with
a truthy string formatter. -/
theorem C9_thm_witness :
    collectElems (fun x => x.fresh) treeC7 = []
    ∧ collectElems (fun x => x.dataId == "c9") treeC7 = []
    ∧ (formatterCallCount (some (fun _ => FormatVal.strv ("highlight")))
          ⟨"c9", "normal", true, 3, 8⟩
        = (if ((fun (_ : Ann) => FormatVal.strv ("highlight"))
            ⟨"c9", "normal", true, 3, 8⟩).truthy then 2 else 1)
      ∧ ∀ ed ∈ collectElems (fun x => x.dataId == "c9")
          ( addAnnotation (some (fun _ => FormatVal.strv ("highlight"))) treeC7
            ⟨"c9", "normal", true, 3, 8⟩),
        ed = styledED (if ((fun (_ : Ann) => FormatVal.strv ("highlight"))
            ⟨"c9", "normal", true, 3, 8⟩).truthy
          then (fun (_ : Ann) => FormatVal.strv ("highlight")) ⟨"c9", "normal", true, 3, 8⟩
          else FormatVal.undef) ⟨"c9", "normal", true, 3, 8⟩) :=
  ⟨by decide, by decide,
    C9_thm (plainED ("")) [.elem (plainED ("p")) [.text ("Hello ").toList],
      .elem (plainED ("p")) [.text ("world").toList]]
      (fun _ => FormatVal.strv ("highlight")) ⟨"c9", "normal", true, 3, 8⟩
      (by decide) (by decide) (by decide)⟩

end Highlighter
